import Mathlib

/-!
# SHA-256 hashing server: scheduler, worker pool and result cache

A shallow embedding of `src/server.c`.  The two global linked lists
(`request_queue`, `hash_cache`) become Lean lists whose head is the C list
head.  C strings are lists of characters without the terminating NUL.
Critical sections guarded by `server_mutex` are atomic steps of a transition
system; everything a worker does outside the mutex touches only its own
locals and the file system, which enters the model as explicit inputs
(`file_exists` for `access`, `digest` and `stale` for `digest_file`: the digest
when it could open the file, and what its output array held before the call).

`include/common.h` is not part of the sources.  Its constants are taken as
the fields of `common_h`, and the two record types are modelled with the
fields the code reads and writes.
-/

namespace Sha256Server

/-! ## Data model -/

/-- C strings: the characters up to, not including, the terminating NUL. -/
abbrev c_string := List Char

/-- Constants of `include/common.h`, which is not among the sources: they are
parameters of the model. -/
structure common_h where
  MAX_PATH : Nat
  HASH_SIZE : Nat
  REQ_COMPUTE : Int
  REQ_QUERY_CACHE : Int
deriving DecidableEq, Repr

/-- Record `request_t` as used by `server.c` and `client.c`: `type`,
`file_path`, `client_fifo`, `file_size`.  The size is a signed machine integer
that is only ever compared, never computed with, so `Int` is exact.  The
server takes the record as `read` delivers it (line 174) and checks nothing:
`file_path` is the C string that starts at the field, and when the `MAX_PATH`
bytes of the field hold no NUL it has `MAX_PATH` characters or more. -/
structure request_t where
  type : Int
  file_path : c_string
  client_fifo : c_string
  file_size : Int
deriving DecidableEq, Repr

/-- Record `response_t` as used by `server.c` and `client.c`. -/
structure response_t where
  status : Int
  from_cache : Int
  hash : c_string
deriving DecidableEq, Repr

/-- Node of the cache list (`cache_node_t` without the `next` pointer): `path`
and `hash` are the C strings that start at the two members, which is what
`strcmp`, `strcpy` and `%s` read. -/
structure cache_node_t where
  path : c_string
  hash : c_string
deriving DecidableEq, Repr

/-- Node of the request queue (`request_node_t` without the `next` pointer).
The field `seq` is a ghost: it numbers the nodes in the order in which
`enqueue_request` allocated them and stands for the identity of the allocated
node.  No definition that embeds code reads it. -/
structure request_node_t where
  data : request_t
  seq : Nat
deriving DecidableEq, Repr

/-! ## Admission scheduler (`enqueue_request`, head removal in `worker_thread`) -/

/-- The `else` branch of `enqueue_request`, lines 51-56, seen from `curr`:
`rest` is the list hanging off `curr->next`.  The loop advances while the next
node exists and its size is `<=` the new size, then links the new node in. -/
def enqueue_walk (rest : List request_node_t) (new_node : request_node_t) :
    List request_node_t :=
  match rest with
  | [] => [new_node]
  | nxt :: rest' =>
    if nxt.data.file_size ≤ new_node.data.file_size then nxt :: enqueue_walk rest' new_node
    else new_node :: nxt :: rest'

/-- Function `enqueue_request`, lines 39-57: allocate the node (its ghost
number is `seq`), make it the new head when the queue is empty or the new size
is strictly smaller than the head's, otherwise walk. -/
def enqueue_request (request_queue : List request_node_t) (req : request_t) (seq : Nat) :
    List request_node_t :=
  let new_node : request_node_t := { data := req, seq := seq }
  match request_queue with
  | [] => [new_node]
  | hd :: tl =>
    if req.file_size < hd.data.file_size then new_node :: hd :: tl
    else hd :: enqueue_walk tl new_node

/-- Head removal of `worker_thread`, lines 75-80.  On an empty queue the worker
stays in `pthread_cond_wait`: there is no result. -/
def dequeue_request (request_queue : List request_node_t) :
    Option (request_node_t × List request_node_t) :=
  match request_queue with
  | [] => none
  | node :: next => some (node, next)

/-- Submitting the requests one after another; `seq` counts the calls. -/
def enqueue_all (request_queue : List request_node_t) (seq : Nat) (reqs : List request_t) :
    List request_node_t :=
  match reqs with
  | [] => request_queue
  | req :: rest => enqueue_all (enqueue_request request_queue req seq) (seq + 1) rest

/-- Repeated head removal until the queue is empty; the requests taken out of
the removed nodes (line 83), in removal order.  The fuel bounds the number of
removals. -/
def drain_queue : Nat → List request_node_t → List request_t
  | 0, _ => []
  | fuel + 1, q =>
    match dequeue_request q with
    | none => []
    | some (node, q') => node.data :: drain_queue fuel q'

/-- Ordering used by the scheduler, as a Boolean relation on requests. -/
def size_le (a b : request_t) : Bool := decide (a.file_size ≤ b.file_size)

/-- Ascending declared-size order of a list of requests. -/
def sizes_sorted (l : List request_t) : Prop :=
  l.Pairwise (fun a b => a.file_size ≤ b.file_size)

/-- Ascending declared-size order of a queue. -/
def queue_sorted (q : List request_node_t) : Prop :=
  q.Pairwise (fun a b => a.data.file_size ≤ b.data.file_size)

instance (l : List request_t) : Decidable (sizes_sorted l) := by
  unfold sizes_sorted; infer_instance

instance (q : List request_node_t) : Decidable (queue_sorted q) := by
  unfold queue_sorted; infer_instance

/-- Queue invariant with the FIFO tie-break: sizes ascend, and of two entries of
equal size the one in front was allocated first. -/
def queue_fifo_sorted (q : List request_node_t) : Prop :=
  q.Pairwise (fun a b => a.data.file_size ≤ b.data.file_size ∧
    (a.data.file_size = b.data.file_size → a.seq < b.seq))

instance (q : List request_node_t) : Decidable (queue_fifo_sorted q) := by
  unfold queue_fifo_sorted; infer_instance

/-- Operations on the queue: a call of `enqueue_request`, or a worker passing
through lines 73-81. -/
inductive queue_op where
  | enqueue (req : request_t)
  | dequeue
deriving DecidableEq, Repr

/-- The queue together with the ghost count of `enqueue_request` calls. -/
structure queue_state where
  request_queue : List request_node_t
  enqueued : Nat
deriving DecidableEq, Repr

/-- One queue operation.  A dequeue on the empty queue leaves the worker
waiting and the queue as it is. -/
def queue_step (s : queue_state) (op : queue_op) : queue_state :=
  match op with
  | .enqueue req =>
    { request_queue := enqueue_request s.request_queue req s.enqueued,
      enqueued := s.enqueued + 1 }
  | .dequeue =>
    match dequeue_request s.request_queue with
    | none => s
    | some (_, next) => { s with request_queue := next }

/-- The requests passed to `enqueue_request` by a schedule, in call order. -/
def enqueued_reqs (ops : List queue_op) : List request_t :=
  ops.filterMap (fun op => match op with
    | .enqueue req => some req
    | .dequeue => none)

/-- What the ghost numbers mean: every queued node has a number below the call
count, no two queued nodes share one, and node number `k` holds the request of
call number `k` (counting from 0) of the history `hist`. -/
def queue_stamps_ok (hist : List request_t) (s : queue_state) : Prop :=
  s.enqueued = hist.length ∧
  (s.request_queue.map request_node_t.seq).Nodup ∧
  ∀ e ∈ s.request_queue, hist[e.seq]? = some e.data

instance (hist : List request_t) (s : queue_state) : Decidable (queue_stamps_ok hist s) := by
  unfold queue_stamps_ok; infer_instance

/-- Any interleaving of enqueues and dequeues, from the empty queue. -/
def queue_run (ops : List queue_op) : queue_state :=
  ops.foldl queue_step { request_queue := [], enqueued := 0 }

/-- Values for the constants of `common.h`, used for the concrete examples
only; every general theorem quantifies over the constants. -/
def K_example : common_h :=
  { MAX_PATH := 256, HASH_SIZE := 65, REQ_COMPUTE := 0, REQ_QUERY_CACHE := 1 }

/-- Compute request with the given path and size, as `client.c` builds it. -/
def mk_req (K : common_h) (path : String) (fifo : String) (size : Int) : request_t :=
  { type := K.REQ_COMPUTE, file_path := path.toList, client_fifo := fifo.toList,
    file_size := size }

/-! ## Result cache -/

/-- The C string that starts at `new_cache->path` after lines 120-121.
`strncpy` with the bound `MAX_PATH` copies a path shorter than `MAX_PATH` whole
and pads with NULs.  Of a longer path it copies the first `MAX_PATH`
characters and stores no NUL: the string then runs on through `hash`, the
member of `cache_node_t` that lies right behind `path`, which `strcpy` fills
and terminates. -/
def new_cache_path (K : common_h) (file_path hash : c_string) : c_string :=
  if file_path.length < K.MAX_PATH then file_path
  else file_path.take K.MAX_PATH ++ hash

/-- Cache scan of `worker_thread`, lines 93-101: the first node whose path
equals the request's path gives the hash and sets `from_cache`. -/
def cache_scan (hash_cache : List cache_node_t) (req : request_t) (res : response_t) :
    response_t :=
  match hash_cache with
  | [] => res
  | c :: next =>
    if c.path = req.file_path then { res with hash := c.hash, from_cache := 1 }
    else cache_scan next req res

/-- Cache update of `worker_thread`, lines 119-123: a new node in front, with no
look at the nodes already there. -/
def cache_insert (K : common_h) (hash_cache : List cache_node_t) (file_path : c_string)
    (hash : c_string) : List cache_node_t :=
  { path := new_cache_path K file_path hash, hash := hash } :: hash_cache

/-! ## Hex encoding of the digest (lines 110-115) -/

/-- The NUL character. -/
def NUL : Char := Char.ofNat 0

/-- Conversion `%02x` of `sprintf`: lower-case hexadecimal, zero-padded to
width two. -/
def sprintf_02x (v : Nat) : List Char :=
  let digits := Nat.toDigits 16 v
  List.replicate (2 - digits.length) '0' ++ digits

/-- Storing the characters `s` into the buffer from offset `off` on. -/
def poke (buf : List Char) (off : Nat) (s : List Char) : List Char :=
  match s with
  | [] => buf
  | c :: cs => poke (buf.set off c) (off + 1) cs

/-- Call `sprintf(buf + off, fmt, ...)` whose formatted text is `s`: the text
and its terminating NUL are stored. -/
def sprintf_at (buf : List Char) (off : Nat) (s : List Char) : List Char :=
  poke buf off (s ++ [NUL])

/-- The C string held in a buffer: the characters before the first NUL. -/
def c_str (buf : List Char) : c_string := buf.takeWhile (fun c => c != NUL)

/-- Element `i` of the `uint8_t raw_hash[32]` array. -/
def raw_byte (raw_hash : List Nat) (i : Nat) : Nat := raw_hash.getD i 0 % 256

/-- Lines 113-115 on the buffer `res.hash` of `HASH_SIZE` bytes, which is still
all zero from line 87 when control gets here (no `strcpy` has run, since
`from_cache` is 0): 32 calls of `sprintf` at offsets `i * 2`, then the NUL at
index 64; the result is the C string the buffer then holds. -/
def hex_encode (K : common_h) (raw_hash : List Nat) : c_string :=
  let zeroed := List.replicate K.HASH_SIZE NUL
  let filled := (List.range 32).foldl
    (fun buf i => sprintf_at buf (i * 2) (sprintf_02x (raw_byte raw_hash i))) zeroed
  c_str (filled.set 64 NUL)

/-- Hexadecimal digit of a value below 16, lower case. -/
def hex_digit (n : Nat) : Char := Nat.digitChar n

/-- Value of a lower-case hexadecimal digit. -/
def hex_value (c : Char) : Nat :=
  if c.toNat < 58 then c.toNat - 48 else c.toNat - 87

/-- Reading a hex string back, two characters per byte.  Not part of the
server: it serves to state that the encoding loses nothing. -/
def hex_decode : List Char → List Nat
  | hi :: lo :: rest => (hex_value hi * 16 + hex_value lo) :: hex_decode rest
  | _ => []

/-- The two hex digits of each byte, high digit first. -/
def hex_pairs (bytes : List Nat) : List Char :=
  match bytes with
  | [] => []
  | b :: rest => hex_digit (b / 16) :: hex_digit (b % 16) :: hex_pairs rest

/-- The 32 bytes of `raw_hash` as the loop of line 113 reads them. -/
def raw_bytes (raw_hash : List Nat) : List Nat := (List.range 32).map (raw_byte raw_hash)

/-- A 32-byte digest value: 32 elements, each below 256. -/
def is_digest (d : List Nat) : Prop := d.length = 32 ∧ ∀ b ∈ d, b < 256

instance (d : List Nat) : Decidable (is_digest d) := by
  unfold is_digest; infer_instance

/-- Predicate: the character is one of `0-9`, `a-f`. -/
def is_hex_char (c : Char) : Bool := "0123456789abcdef".toList.contains c

/-! ## Worker (`worker_thread`) -/

/-- The sentinel of line 108. -/
def ERRORE_FILE_NOT_FOUND : c_string := "ERRORE_FILE_NOT_FOUND".toList

/-- Lines 86-89: the zeroed response. -/
def res_init : response_t := { status := 0, from_cache := 0, hash := [] }

/-- Lines 105-115, the part of step 3 before the cache update.  The inputs are
the outcome of `access` and the 32 bytes that `raw_hash` holds when
`digest_file` has returned (the digest, or whatever the array held if
`digest_file` gave up on `open`, line 17 of `sha256_utils.c`).  The Boolean
says whether the cache update of lines 118-124 follows. -/
def worker_compute (K : common_h) (res : response_t) (file_exists : Bool)
    (raw_hash : List Nat) : response_t × Bool :=
  if res.from_cache = 0 then
    if !file_exists then ({ res with hash := ERRORE_FILE_NOT_FOUND }, false)
    else ({ res with hash := hex_encode K raw_hash }, true)
  else (res, false)

/-- Function `digest_file` of `sha256_utils.c` seen from its caller.  The
argument `raw_hash` is what the output array holds before the call; `digest`
is the SHA-256 value when the function could open the file, and `none` when
`open` failed and the function returned at line 17 without writing.  The
result is what the array holds after the call. -/
def digest_file (digest : Option (List Nat)) (raw_hash : List Nat) : List Nat :=
  match digest with
  | none => raw_hash
  | some d => d

/-- Lines 86-126 run by one worker with no other thread in between: the
response and the cache afterwards. -/
def worker_thread_body (K : common_h) (hash_cache : List cache_node_t) (req : request_t)
    (file_exists : Bool) (raw_hash : List Nat) : response_t × List cache_node_t :=
  let res := cache_scan hash_cache req res_init
  match worker_compute K res file_exists raw_hash with
  | (res', true) => (res', cache_insert K hash_cache req.file_path res'.hash)
  | (res', false) => (res', hash_cache)

/-! ## Dispatcher (`main`, lines 172-204) -/

/-- The message of line 184 as the bytes of the source file (the accented
letter is the two bytes C3 A8). -/
def cache_empty_msg : c_string :=
  "La cache ".toList ++ [Char.ofNat 0xC3, Char.ofNat 0xA8] ++ " vuota.\n".toList

/-- Line 190: `snprintf` into `char line[512]` keeps at most 511 characters. -/
def cache_line (c : cache_node_t) : c_string :=
  ("File: ".toList ++ c.path ++ " | Hash: ".toList ++ c.hash ++ ['\n']).take 511

/-- Lines 183-194: the sequence of `write` calls on the requester's FIFO. -/
def query_cache_dump (hash_cache : List cache_node_t) : List c_string :=
  match hash_cache with
  | [] => [cache_empty_msg]
  | _ :: _ => hash_cache.map cache_line

/-! ## The server as a transition system -/

/-- Where a worker stands in its loop, with its locals. -/
inductive worker_pc where
  | wait
  | scan (req : request_t)
  | compute (req : request_t) (res : response_t)
  | update (req : request_t) (res : response_t)
  | reply (req : request_t) (res : response_t)
deriving DecidableEq, Repr

/-- A call of `digest_file` by a worker (line 111): the path, the digest if the
function produced one, and what `raw_hash` held before the call. -/
structure digest_call where
  path : c_string
  digest : Option (List Nat)
  stale : List Nat
deriving DecidableEq, Repr

/-- Globals of `server.c` and the workers, and three ghost logs: the calls of
`digest_file`, the responses written to client FIFOs, and the cache listings
written. -/
structure server_state where
  request_queue : List request_node_t
  enqueued : Nat
  hash_cache : List cache_node_t
  workers : List worker_pc
  digests : List digest_call
  replies : List (request_t × response_t)
  listings : List (c_string × List c_string)
deriving DecidableEq, Repr

/-- Constant `MAX_THREADS` of line 12. -/
def MAX_THREADS : Nat := 4

/-- State after start-up: empty queue, empty cache, all workers at the top of
their loop. -/
def server_init : server_state :=
  { request_queue := [], enqueued := 0, hash_cache := [],
    workers := List.replicate MAX_THREADS worker_pc.wait,
    digests := [], replies := [], listings := [] }

/-- What can happen next: the dispatcher's `read` returns `n` with the record
`req` (and, for a listing, the requester's FIFO opens or not), or worker `w`
takes its next step (with the outcomes of `access`, `digest_file` and `open`
it would meet, and the content `stale` of the uninitialised array `raw_hash`
of line 110). -/
inductive event where
  | inbound (n : Int) (req : request_t) (fifo_opened : Bool)
  | worker (w : Nat) (file_exists : Bool) (digest : Option (List Nat)) (stale : List Nat)
      (fifo_opened : Bool)
deriving DecidableEq, Repr

/-- One iteration of the dispatcher loop, lines 173-203. -/
def main_loop_body (K : common_h) (s : server_state) (n : Int) (req : request_t)
    (fifo_opened : Bool) : server_state :=
  if 0 < n then
    if req.type = K.REQ_QUERY_CACHE then
      if fifo_opened then
        { s with listings := s.listings ++ [(req.client_fifo, query_cache_dump s.hash_cache)] }
      else s
    else if req.type = K.REQ_COMPUTE then
      { s with request_queue := enqueue_request s.request_queue req s.enqueued,
               enqueued := s.enqueued + 1 }
    else s
  else s

/-- Next step of a worker standing at `pc`: the new globals and the new
position.  Each case is one stretch of `worker_thread` that is either inside
the mutex or touches no shared data. -/
def worker_step (K : common_h) (s : server_state) (pc : worker_pc) (file_exists : Bool)
    (digest : Option (List Nat)) (stale : List Nat) (fifo_opened : Bool) :
    server_state × worker_pc :=
  match pc with
  | .wait =>
    match dequeue_request s.request_queue with
    | none => (s, .wait)
    | some (node, next) => ({ s with request_queue := next }, .scan node.data)
  | .scan req => (s, .compute req (cache_scan s.hash_cache req res_init))
  | .compute req res =>
    match worker_compute K res file_exists (digest_file digest stale) with
    | (res', true) =>
      ({ s with digests := s.digests ++
          [{ path := req.file_path, digest := digest, stale := stale }] }, .update req res')
    | (res', false) => (s, .reply req res')
  | .update req res =>
    ({ s with hash_cache := cache_insert K s.hash_cache req.file_path res.hash },
      .reply req res)
  | .reply req res =>
    if fifo_opened then ({ s with replies := s.replies ++ [(req, res)] }, .wait)
    else (s, .wait)

/-- One event. -/
def server_step (K : common_h) (s : server_state) (e : event) : server_state :=
  match e with
  | .inbound n req fifo_opened => main_loop_body K s n req fifo_opened
  | .worker w file_exists digest stale fifo_opened =>
    match s.workers.get? w with
    | none => s
    | some pc =>
      let (s', pc') := worker_step K s pc file_exists digest stale fifo_opened
      { s' with workers := s'.workers.set w pc' }

/-- Any schedule of events from start-up. -/
def server_run (K : common_h) (events : List event) : server_state :=
  events.foldl (server_step K) server_init

/-- One worker taken from `.scan req` back to the top of its loop with no other
event in between: three steps when there is no cache update, four when there
is. -/
def worker_iteration (K : common_h) (s : server_state) (req : request_t) (file_exists : Bool)
    (digest : Option (List Nat)) (stale : List Nat) (fifo_opened : Bool) : server_state :=
  let (s1, pc1) := worker_step K s (.scan req) file_exists digest stale fifo_opened
  let (s2, pc2) := worker_step K s1 pc1 file_exists digest stale fifo_opened
  let (s3, pc3) := worker_step K s2 pc2 file_exists digest stale fifo_opened
  match pc3 with
  | .wait => s3
  | _ => (worker_step K s3 pc3 file_exists digest stale fifo_opened).1

/-! ## Invariant of the transition system -/

/-- A request whose path is shorter than `MAX_PATH`: it fits the `MAX_PATH`
bytes of a path buffer, NUL included. -/
def req_ok (K : common_h) (req : request_t) : Prop := req.file_path.length < K.MAX_PATH

instance (K : common_h) (req : request_t) : Decidable (req_ok K req) := by
  unfold req_ok; infer_instance

/-- An event whose request, if it carries one, is well formed. -/
def event_ok (K : common_h) (e : event) : Prop :=
  match e with
  | .inbound _ req _ => req_ok K req
  | .worker _ _ _ _ _ => True

instance (K : common_h) (e : event) : Decidable (event_ok K e) := by
  cases e <;> (unfold event_ok; infer_instance)

/-- The hash stems from an earlier call of `digest_file` for this path: it is
the hex encoding of what `raw_hash` held after that call, which is the digest
whenever the call produced one. -/
def hash_valid (K : common_h) (digests : List digest_call) (path hash : c_string) : Prop :=
  ∃ call ∈ digests, call.path = path ∧
    hash = hex_encode K (digest_file call.digest call.stale) ∧
    ∀ d, call.digest = some d → hash = hex_encode K d

/-- This call of `digest_file` was for `path`, produced a digest, and `hash` is
the hex encoding of that digest. -/
def call_gives (K : common_h) (call : digest_call) (path hash : c_string) : Prop :=
  call.path = path ∧
    match call.digest with
    | some d => hash = hex_encode K d
    | none => False

instance (K : common_h) (call : digest_call) (path hash : c_string) :
    Decidable (call_gives K call path hash) := by
  unfold call_gives
  cases call.digest <;> infer_instance

/-- The hash is the hex encoding of a value the digest provider returned for
this path. -/
def hash_from_provider (K : common_h) (digests : List digest_call) (path hash : c_string) :
    Prop :=
  ∃ call ∈ digests, call_gives K call path hash

instance (K : common_h) (digests : List digest_call) (path hash : c_string) :
    Decidable (hash_from_provider K digests path hash) := by
  unfold hash_from_provider; infer_instance

/-- What holds of a worker's locals at each point of its loop. -/
def pc_inv (K : common_h) (digests : List digest_call) (pc : worker_pc) : Prop :=
  match pc with
  | .wait => True
  | .scan req => req_ok K req
  | .compute req res =>
    req_ok K req ∧ (res.from_cache = 1 → hash_valid K digests req.file_path res.hash)
  | .update req res => req_ok K req ∧ hash_valid K digests req.file_path res.hash
  | .reply req res => res.from_cache = 1 → hash_valid K digests req.file_path res.hash

/-- The invariant: queued requests are well formed, every cache entry and
every response marked `from_cache` carries a valid hash. -/
def server_inv (K : common_h) (s : server_state) : Prop :=
  (∀ nd ∈ s.request_queue, req_ok K nd.data) ∧
  (∀ c ∈ s.hash_cache, hash_valid K s.digests c.path c.hash) ∧
  (∀ pc ∈ s.workers, pc_inv K s.digests pc) ∧
  (∀ rr ∈ s.replies, rr.2.from_cache = 1 → hash_valid K s.digests rr.1.file_path rr.2.hash)

/-- A schedule in which two requests for the same path both miss the cache
before either worker inserts, followed by a third request for the path: two
inbound requests, workers 0 and 1 each dequeue, scan, compute, update and
reply in lock step, then a third request is taken through by worker 2. -/
def double_miss_schedule : List event :=
  let req := mk_req K_example "/tmp/f" "/tmp/c1" 3
  let d := List.range 32
  [.inbound 64 req true, .inbound 64 req true,
    .worker 0 true (some d) [] true, .worker 1 true (some d) [] true,
    .worker 0 true (some d) [] true, .worker 1 true (some d) [] true,
    .worker 0 true (some d) [] true, .worker 1 true (some d) [] true,
    .worker 0 true (some d) [] true, .worker 1 true (some d) [] true,
    .worker 0 true (some d) [] true, .worker 1 true (some d) [] true,
    .inbound 64 req true,
    .worker 2 false none [] true, .worker 2 false none [] true,
    .worker 2 false none [] true, .worker 2 false none [] true]

/-- A path field whose 256 bytes hold no NUL: the string that starts at it has
the 256 characters and runs on into the bytes that lie behind the field. -/
def long_path : c_string := List.replicate 256 'a' ++ "/tmp/c1".toList

/-- A Compute request with the path `long_path`. -/
def long_req : request_t :=
  { type := K_example.REQ_COMPUTE, file_path := long_path, client_fifo := "/tmp/c1".toList,
    file_size := 3 }

/-- One worker takes a request through its five steps. -/
def worker_pass (w : Nat) (file_exists : Bool) (digest : Option (List Nat))
    (stale : List Nat) : List event :=
  List.replicate 5 (event.worker w file_exists digest stale true)

/-- A schedule in which `digest_file` fails on its second call: `/tmp/f` is
hashed, then a request comes for `/tmp/sock`, which exists but cannot be
opened for reading, while `raw_hash` still holds the bytes of the first call. -/
def stale_digest_schedule : List event :=
  [.inbound 64 (mk_req K_example "/tmp/f" "/tmp/c1" 3) true] ++
    worker_pass 0 true (some (List.range 32)) [] ++
  [.inbound 64 (mk_req K_example "/tmp/sock" "/tmp/c2" 0) true] ++
    worker_pass 0 true none (List.range 32)

/-- A schedule with one request whose path field holds no NUL. -/
def long_path_schedule : List event :=
  [.inbound 64 long_req true] ++ worker_pass 0 true (some (List.range 32)) []

/-! ## Scheduler lemmas -/

theorem enqueue_walk_eq (rest : List request_node_t) (nd : request_node_t) :
    enqueue_walk rest nd =
      rest.takeWhile (fun n => decide (n.data.file_size ≤ nd.data.file_size)) ++
        nd :: rest.dropWhile (fun n => decide (n.data.file_size ≤ nd.data.file_size)) := by
  induction rest with
  | nil => simp [enqueue_walk]
  | cons nxt rest' ih =>
    by_cases h : nxt.data.file_size ≤ nd.data.file_size
    · simp [enqueue_walk, h, ih, List.takeWhile, List.dropWhile]
    · simp [enqueue_walk, h, List.takeWhile, List.dropWhile]

theorem enqueue_request_eq (q : List request_node_t) (req : request_t) (k : Nat) :
    enqueue_request q req k =
      q.takeWhile (fun n => decide (n.data.file_size ≤ req.file_size)) ++
        { data := req, seq := k } ::
          q.dropWhile (fun n => decide (n.data.file_size ≤ req.file_size)) := by
  cases q with
  | nil => simp [enqueue_request]
  | cons hd tl =>
    by_cases h : req.file_size < hd.data.file_size
    · have h' : ¬ hd.data.file_size ≤ req.file_size := not_le.mpr h
      simp [enqueue_request, h, h', List.takeWhile, List.dropWhile]
    · have h' : hd.data.file_size ≤ req.file_size := not_lt.mp h
      simp [enqueue_request, h, h', enqueue_walk_eq, List.takeWhile, List.dropWhile]

theorem takeWhile_all_le (q : List request_node_t) (v : Int) :
    ∀ e ∈ q.takeWhile (fun n => decide (n.data.file_size ≤ v)), e.data.file_size ≤ v := by
  intro e he
  simpa using List.mem_takeWhile_imp he

theorem dropWhile_all_gt (q : List request_node_t) (v : Int) (hq : queue_sorted q) :
    ∀ e ∈ q.dropWhile (fun n => decide (n.data.file_size ≤ v)), v < e.data.file_size := by
  induction q with
  | nil => simp
  | cons hd tl ih =>
    have htl : queue_sorted tl := (List.pairwise_cons.mp hq).2
    by_cases h : hd.data.file_size ≤ v
    · simpa [List.dropWhile, h] using ih htl
    · intro e he
      simp only [List.dropWhile, h, decide_False] at he
      rcases List.mem_cons.mp he with rfl | hmem
      · exact not_le.mp h
      · have := (List.pairwise_cons.mp hq).1 e hmem
        exact lt_of_lt_of_le (not_le.mp h) this

/-- Where `enqueue_request` puts the node in a sorted queue. -/
theorem enqueue_request_split (q : List request_node_t) (req : request_t) (k : Nat)
    (hq : queue_sorted q) :
    ∃ before after, q = before ++ after ∧
      enqueue_request q req k = before ++ { data := req, seq := k } :: after ∧
      (∀ e ∈ before, e.data.file_size ≤ req.file_size) ∧
      (∀ e ∈ after, req.file_size < e.data.file_size) :=
  ⟨_, _, (List.takeWhile_append_dropWhile _ q).symm, enqueue_request_eq q req k,
    takeWhile_all_le q req.file_size, dropWhile_all_gt q req.file_size hq⟩

theorem enqueue_request_sorted (q : List request_node_t) (req : request_t) (k : Nat)
    (hq : queue_sorted q) : queue_sorted (enqueue_request q req k) := by
  obtain ⟨before, after, hsplit, heq, hb, ha⟩ := enqueue_request_split q req k hq
  rw [heq]
  subst hsplit
  unfold queue_sorted at *
  obtain ⟨h1, h2, h3⟩ := List.pairwise_append.mp hq
  refine List.pairwise_append.mpr ⟨h1, ?_, ?_⟩
  · exact List.pairwise_cons.mpr ⟨fun e he => le_of_lt (ha e he), h2⟩
  · intro a ha' b hb'
    rcases List.mem_cons.mp hb' with rfl | hb'
    · exact hb a ha'
    · exact h3 a ha' b hb'

theorem enqueue_request_length (q : List request_node_t) (req : request_t) (k : Nat) :
    (enqueue_request q req k).length = q.length + 1 := by
  rw [enqueue_request_eq, List.length_append, List.length_cons]
  have := congrArg List.length (List.takeWhile_append_dropWhile
    (fun n : request_node_t => decide (n.data.file_size ≤ req.file_size)) q)
  rw [List.length_append] at this
  omega

theorem enqueue_request_filter (q : List request_node_t) (req : request_t) (k : Nat)
    (hq : queue_sorted q) (s : Int) :
    ((enqueue_request q req k).map request_node_t.data).filter
        (fun e => decide (e.file_size = s)) =
      (q.map request_node_t.data).filter (fun e => decide (e.file_size = s)) ++
        (if req.file_size = s then [req] else []) := by
  obtain ⟨before, after, hsplit, heq, -, ha⟩ := enqueue_request_split q req k hq
  rw [heq, hsplit]
  simp only [List.map_append, List.map_cons, List.filter_append, List.filter_cons]
  by_cases h : req.file_size = s
  · have hnil : (after.map request_node_t.data).filter
        (fun e => decide (e.file_size = s)) = [] := by
      rw [List.filter_eq_nil_iff]
      intro e he
      obtain ⟨nd, hnd, rfl⟩ := List.mem_map.mp he
      have := ha nd hnd
      simp only [decide_eq_true_eq]
      omega
    rw [hnil, if_pos h]
    simp [h]
  · simp [h]

theorem enqueue_all_sorted (reqs : List request_t) (q : List request_node_t) (k : Nat)
    (hq : queue_sorted q) : queue_sorted (enqueue_all q k reqs) := by
  induction reqs generalizing q k with
  | nil => simpa [enqueue_all] using hq
  | cons r rs ih =>
    simpa [enqueue_all] using ih (enqueue_request q r k) (k + 1) (enqueue_request_sorted q r k hq)

theorem enqueue_all_filter (reqs : List request_t) (q : List request_node_t) (k : Nat)
    (hq : queue_sorted q) (s : Int) :
    ((enqueue_all q k reqs).map request_node_t.data).filter
        (fun e => decide (e.file_size = s)) =
      (q.map request_node_t.data).filter (fun e => decide (e.file_size = s)) ++
        reqs.filter (fun e => decide (e.file_size = s)) := by
  induction reqs generalizing q k with
  | nil => simp [enqueue_all]
  | cons r rs ih =>
    have h := ih (enqueue_request q r k) (k + 1) (enqueue_request_sorted q r k hq)
    simp only [enqueue_all] at h ⊢
    rw [h, enqueue_request_filter q r k hq s, List.filter_cons]
    by_cases hr : r.file_size = s <;> simp [hr]

theorem enqueue_all_length (reqs : List request_t) (q : List request_node_t) (k : Nat) :
    (enqueue_all q k reqs).length = q.length + reqs.length := by
  induction reqs generalizing q k with
  | nil => simp [enqueue_all]
  | cons r rs ih =>
    simp only [enqueue_all, ih, enqueue_request_length, List.length_cons]
    omega

theorem drain_queue_all (fuel : Nat) (q : List request_node_t) (h : q.length ≤ fuel) :
    drain_queue fuel q = q.map request_node_t.data := by
  induction fuel generalizing q with
  | zero =>
    have : q = [] := List.length_eq_zero.mp (Nat.le_zero.mp h)
    simp [drain_queue, this]
  | succ n ih =>
    cases q with
    | nil => simp [drain_queue, dequeue_request]
    | cons a t =>
      have : t.length ≤ n := by simpa using h
      simp [drain_queue, dequeue_request, ih t this]

/-- Two size-sorted lists that agree on every size class are equal. -/
theorem sorted_classes_unique (l₁ l₂ : List request_t)
    (h₁ : sizes_sorted l₁) (h₂ : sizes_sorted l₂)
    (hc : ∀ s : Int, l₁.filter (fun e => decide (e.file_size = s)) =
      l₂.filter (fun e => decide (e.file_size = s))) : l₁ = l₂ := by
  induction l₁ generalizing l₂ with
  | nil =>
    cases l₂ with
    | nil => rfl
    | cons b t => have := hc b.file_size; simp at this
  | cons a t ih =>
    cases l₂ with
    | nil => have := hc a.file_size; simp at this
    | cons b u =>
      have ha := List.pairwise_cons.mp h₁
      have hb := List.pairwise_cons.mp h₂
      have hab : b.file_size ≤ a.file_size := by
        have hm : a ∈ (b :: u).filter (fun e => decide (e.file_size = a.file_size)) := by
          rw [← hc]; simp
        have hm' := (List.mem_filter.mp hm).1
        rcases List.mem_cons.mp hm' with h | h
        · rw [h]
        · exact hb.1 a h
      have hba : a.file_size ≤ b.file_size := by
        have hm : b ∈ (a :: t).filter (fun e => decide (e.file_size = b.file_size)) := by
          rw [hc]; simp
        have hm' := (List.mem_filter.mp hm).1
        rcases List.mem_cons.mp hm' with h | h
        · rw [h]
        · exact ha.1 b h
      have hsz : a.file_size = b.file_size := le_antisymm hba hab
      have hhead := hc a.file_size
      simp only [List.filter_cons, decide_True, hsz] at hhead
      simp only [← hsz, decide_True, if_true] at hhead
      have hab' : a = b := (List.cons.inj hhead).1
      subst hab'
      congr 1
      apply ih u ha.2 hb.2
      intro s
      have := hc s
      simp only [List.filter_cons] at this
      by_cases hs : a.file_size = s
      · simp only [hs, decide_True, if_true] at this
        exact (List.cons.inj this).2
      · simpa [hs] using this

theorem size_le_trans (a b c : request_t) : size_le a b = true → size_le b c = true →
    size_le a c = true := by
  simp only [size_le, decide_eq_true_eq]; omega

theorem size_le_total (a b : request_t) : (size_le a b || size_le b a) = true := by
  simp only [size_le, Bool.or_eq_true, decide_eq_true_eq]; omega

theorem mergeSort_filter (reqs : List request_t) (s : Int) :
    (reqs.mergeSort size_le).filter (fun e => decide (e.file_size = s)) =
      reqs.filter (fun e => decide (e.file_size = s)) := by
  have hsorted : (reqs.filter (fun e => decide (e.file_size = s))).Pairwise
      (fun a b => size_le a b = true) := by
    apply List.Pairwise.imp_of_mem _ (List.pairwise_of_forall (l := reqs.filter _)
      (R := fun _ _ => True) (fun _ _ => trivial))
    intro a b ha hb _
    have ha' := (List.mem_filter.mp ha).2
    have hb' := (List.mem_filter.mp hb).2
    simp only [decide_eq_true_eq] at ha' hb'
    simp [size_le, ha', hb']
  have hsub := List.sublist_mergeSort size_le_trans size_le_total hsorted
    (List.filter_sublist reqs)
  have hsub' := hsub.filter (fun e => decide (e.file_size = s))
  rw [List.filter_filter] at hsub'
  simp only [Bool.and_self] at hsub'
  have hlen := ((List.mergeSort_perm reqs size_le).filter
    (fun e => decide (e.file_size = s))).length_eq
  exact (hsub'.eq_of_length hlen.symm).symm

theorem mergeSort_sorted (reqs : List request_t) : sizes_sorted (reqs.mergeSort size_le) := by
  have := List.sorted_mergeSort size_le_trans size_le_total reqs
  unfold sizes_sorted
  refine this.imp ?_
  intro a b h
  simpa [size_le] using h

theorem queue_sorted_map (q : List request_node_t) (hq : queue_sorted q) :
    sizes_sorted (q.map request_node_t.data) := by
  unfold sizes_sorted
  rw [List.pairwise_map]
  exact hq

/-- Draining after a batch of submissions gives the stable sort. -/
theorem drain_enqueue_all (reqs : List request_t) :
    (enqueue_all [] 0 reqs).map request_node_t.data = reqs.mergeSort size_le := by
  apply sorted_classes_unique
  · exact queue_sorted_map _ (enqueue_all_sorted reqs [] 0 List.Pairwise.nil)
  · exact mergeSort_sorted reqs
  · intro s
    rw [enqueue_all_filter reqs [] 0 List.Pairwise.nil s, mergeSort_filter]
    simp


/-! ## Queue invariant over interleavings -/

theorem enqueue_request_fifo_sorted (q : List request_node_t) (req : request_t) (k : Nat)
    (hq : queue_fifo_sorted q) (hk : ∀ e ∈ q, e.seq < k) :
    queue_fifo_sorted (enqueue_request q req k) := by
  have hs : queue_sorted q := hq.imp (fun h => h.1)
  obtain ⟨before, after, hsplit, heq, hb, ha⟩ := enqueue_request_split q req k hs
  rw [heq]
  subst hsplit
  unfold queue_fifo_sorted at *
  obtain ⟨h1, h2, h3⟩ := List.pairwise_append.mp hq
  refine List.pairwise_append.mpr ⟨h1, ?_, ?_⟩
  · refine List.pairwise_cons.mpr ⟨fun e he => ?_, h2⟩
    have := ha e he
    exact ⟨le_of_lt this, fun heq' => absurd heq' (ne_of_lt this)⟩
  · intro a ha' b hb'
    rcases List.mem_cons.mp hb' with rfl | hb'
    · exact ⟨hb a ha', fun _ => hk a (List.mem_append_left _ ha')⟩
    · exact h3 a ha' b hb'

theorem enqueue_request_mem (q : List request_node_t) (req : request_t) (k : Nat)
    (e : request_node_t) :
    e ∈ enqueue_request q req k ↔ e = { data := req, seq := k } ∨ e ∈ q := by
  rw [enqueue_request_eq]
  conv_rhs => rw [← List.takeWhile_append_dropWhile
    (fun n : request_node_t => decide (n.data.file_size ≤ req.file_size)) q]
  simp only [List.mem_append, List.mem_cons]
  tauto

theorem queue_step_request_queue_dequeue (s : queue_state) (hd : request_node_t)
    (tl : List request_node_t) (h : s.request_queue = hd :: tl) :
    (queue_step s queue_op.dequeue).request_queue = tl := by
  simp [queue_step, dequeue_request, h]


theorem queue_step_inv (hist : List request_t) (s : queue_state) (op : queue_op)
    (hf : queue_fifo_sorted s.request_queue) (hs : queue_stamps_ok hist s) :
    queue_fifo_sorted (queue_step s op).request_queue ∧
      queue_stamps_ok (hist ++ enqueued_reqs [op]) (queue_step s op) := by
  obtain ⟨hlen, hnd, hget⟩ := hs
  have hlt : ∀ e ∈ s.request_queue, e.seq < s.enqueued := by
    intro e he
    have := hget e he
    rw [hlen]
    by_contra hcon
    rw [List.getElem?_eq_none (not_lt.mp hcon)] at this
    exact Option.noConfusion this
  cases op with
  | enqueue req =>
    refine ⟨enqueue_request_fifo_sorted _ req _ hf hlt, ?_, ?_, ?_⟩
    · simp [queue_step, enqueued_reqs, hlen]
    · simp only [queue_step]
      rw [enqueue_request_eq]
      have hperm : (s.request_queue.takeWhile
            (fun n => decide (n.data.file_size ≤ req.file_size)) ++
          ({ data := req, seq := s.enqueued } : request_node_t) ::
            s.request_queue.dropWhile
              (fun n => decide (n.data.file_size ≤ req.file_size))).Perm
          (({ data := req, seq := s.enqueued } : request_node_t) :: s.request_queue) := by
        refine List.perm_middle.trans ?_
        rw [List.takeWhile_append_dropWhile]
      rw [(hperm.map request_node_t.seq).nodup_iff, List.map_cons, List.nodup_cons]
      refine ⟨?_, hnd⟩
      intro hmem
      obtain ⟨e, he, heq⟩ := List.mem_map.mp hmem
      have := hlt e he
      simp only at heq
      omega
    · intro e he
      simp only [queue_step] at he
      rcases (enqueue_request_mem _ _ _ e).mp he with rfl | he
      · simp [enqueued_reqs, hlen]
      · have h1 := hget e he
        have h2 := hlt e he
        rw [hlen] at h2
        rw [List.getElem?_append_left h2]
        exact h1
  | dequeue =>
    cases hq : s.request_queue with
    | nil =>
      have : queue_step s queue_op.dequeue = s := by simp [queue_step, dequeue_request, hq]
      rw [this]
      refine ⟨hf, ?_, hnd, ?_⟩
      · simp [enqueued_reqs, hlen]
      · simpa [enqueued_reqs] using hget
    | cons hd tl =>
      have hstep : queue_step s queue_op.dequeue = { s with request_queue := tl } := by
        simp [queue_step, dequeue_request, hq]
      rw [hstep]
      rw [hq] at hf hnd hget
      refine ⟨(List.pairwise_cons.mp hf).2, ?_, ?_, ?_⟩
      · simp [enqueued_reqs, hlen]
      · simp only [List.map_cons, List.nodup_cons] at hnd
        exact hnd.2
      · intro e he
        simpa [enqueued_reqs] using hget e (List.mem_cons_of_mem _ he)

theorem enqueued_reqs_cons (op : queue_op) (ops : List queue_op) :
    enqueued_reqs (op :: ops) = enqueued_reqs [op] ++ enqueued_reqs ops := by
  cases op <;> simp [enqueued_reqs]

theorem queue_foldl_inv (ops : List queue_op) (hist : List request_t) (s : queue_state)
    (hf : queue_fifo_sorted s.request_queue) (hs : queue_stamps_ok hist s) :
    queue_fifo_sorted (ops.foldl queue_step s).request_queue ∧
      queue_stamps_ok (hist ++ enqueued_reqs ops) (ops.foldl queue_step s) := by
  induction ops generalizing hist s with
  | nil => simpa [enqueued_reqs] using And.intro hf hs
  | cons op ops ih =>
    obtain ⟨h1, h2⟩ := queue_step_inv hist s op hf hs
    have := ih (hist ++ enqueued_reqs [op]) (queue_step s op) h1 h2
    rw [enqueued_reqs_cons, ← List.append_assoc]
    simpa using this

theorem queue_run_inv (ops : List queue_op) :
    queue_fifo_sorted (queue_run ops).request_queue ∧
      queue_stamps_ok (enqueued_reqs ops) (queue_run ops) := by
  have := queue_foldl_inv ops [] { request_queue := [], enqueued := 0 }
    List.Pairwise.nil ⟨rfl, List.nodup_nil, by simp⟩
  simpa [queue_run] using this


/-! ## Hex encoding lemmas -/

set_option maxRecDepth 1000000 in
theorem sprintf_02x_byte : ∀ b < 256, sprintf_02x b = [hex_digit (b / 16), hex_digit (b % 16)] := by
  decide

theorem hex_digit_props : ∀ n < 16, is_hex_char (hex_digit n) = true ∧
    hex_digit n ≠ NUL ∧ hex_value (hex_digit n) = n := by
  decide

theorem poke_append (pre rest s : List Char) (h : s.length ≤ rest.length) :
    poke (pre ++ rest) pre.length s = pre ++ s ++ rest.drop s.length := by
  induction s generalizing pre rest with
  | nil => simp [poke]
  | cons c cs ih =>
    cases rest with
    | nil => simp at h
    | cons r rest' =>
      have hlen : cs.length ≤ rest'.length := by simpa using h
      have hset : (pre ++ r :: rest').set pre.length c = (pre ++ [c]) ++ rest' := by
        simp [List.set_append]
      have := ih (pre ++ [c]) rest' hlen
      simp only [List.length_append, List.length_singleton] at this
      simp only [poke, hset, this]
      simp

theorem raw_byte_lt (raw_hash : List Nat) (i : Nat) : raw_byte raw_hash i < 256 :=
  Nat.mod_lt _ (by decide)

theorem hex_pairs_append (a b : List Nat) : hex_pairs (a ++ b) = hex_pairs a ++ hex_pairs b := by
  induction a with
  | nil => rfl
  | cons x xs ih => simp [hex_pairs, ih]

theorem hex_pairs_length (a : List Nat) : (hex_pairs a).length = 2 * a.length := by
  induction a with
  | nil => rfl
  | cons x xs ih => simp [hex_pairs, ih]; omega

/-- Buffer after the first `k` rounds of the loop of lines 113-114. -/
theorem hex_loop (n : Nat) (raw_hash : List Nat) (k : Nat) (hk : 2 * k < n) :
    (List.range k).foldl
        (fun buf i => sprintf_at buf (i * 2) (sprintf_02x (raw_byte raw_hash i)))
        (List.replicate n NUL) =
      hex_pairs ((List.range k).map (raw_byte raw_hash)) ++ List.replicate (n - 2 * k) NUL := by
  induction k with
  | zero => simp [hex_pairs]
  | succ k ih =>
    rw [List.range_succ, List.foldl_append, ih (by omega)]
    simp only [List.foldl_cons, List.foldl_nil, List.map_append, List.map_cons, List.map_nil]
    have hoff : k * 2 = (hex_pairs ((List.range k).map (raw_byte raw_hash))).length := by
      rw [hex_pairs_length]; simp; omega
    rw [sprintf_at, hoff, poke_append _ _ _ (by
      rw [sprintf_02x_byte _ (raw_byte_lt raw_hash k)]; simp; omega)]
    rw [sprintf_02x_byte _ (raw_byte_lt raw_hash k), hex_pairs_append]
    simp only [hex_pairs, List.length_append, List.length_cons, List.length_nil,
      List.drop_replicate, List.append_assoc, List.cons_append, List.nil_append]
    have : n - 2 * k - (0 + 1 + 1 + 1) + 1 = n - 2 * (k + 1) := by omega
    rw [← this, List.replicate_succ]

theorem c_str_append_nul (s rest : List Char) (hs : ∀ c ∈ s, c ≠ NUL) :
    c_str (s ++ NUL :: rest) = s := by
  unfold c_str
  rw [List.takeWhile_append_of_pos (by simpa using hs)]
  simp

theorem hex_pairs_no_nul (bytes : List Nat) (h : ∀ b ∈ bytes, b < 256) :
    ∀ c ∈ hex_pairs bytes, c ≠ NUL ∧ is_hex_char c = true := by
  induction bytes with
  | nil => simp [hex_pairs]
  | cons b bs ih =>
    have hb : b < 256 := h b (List.mem_cons_self _ _)
    have h1 := hex_digit_props (b / 16) (by omega)
    have h2 := hex_digit_props (b % 16) (by omega)
    intro c hc
    simp only [hex_pairs, List.mem_cons] at hc
    rcases hc with rfl | rfl | hc
    · exact ⟨h1.2.1, h1.1⟩
    · exact ⟨h2.2.1, h2.1⟩
    · exact ih (fun x hx => h x (List.mem_cons_of_mem _ hx)) c hc

theorem raw_bytes_lt (raw_hash : List Nat) : ∀ b ∈ raw_bytes raw_hash, b < 256 := by
  intro b hb
  obtain ⟨i, -, rfl⟩ := List.mem_map.mp hb
  exact raw_byte_lt raw_hash i

/-- The loop of lines 113-115 produces the hex digits of the 32 bytes. -/
theorem hex_encode_eq (K : common_h) (raw_hash : List Nat) (hK : 64 < K.HASH_SIZE) :
    hex_encode K raw_hash = hex_pairs (raw_bytes raw_hash) := by
  unfold hex_encode
  simp only
  rw [hex_loop K.HASH_SIZE raw_hash 32 (by omega)]
  have hlen : (hex_pairs ((List.range 32).map (raw_byte raw_hash))).length = 64 := by
    rw [hex_pairs_length]; simp
  obtain ⟨m, hm⟩ : ∃ m, K.HASH_SIZE - 2 * 32 = m + 1 := ⟨K.HASH_SIZE - 65, by omega⟩
  rw [hm, List.replicate_succ]
  have hset : (hex_pairs ((List.range 32).map (raw_byte raw_hash)) ++
      NUL :: List.replicate m NUL).set 64 NUL =
      hex_pairs ((List.range 32).map (raw_byte raw_hash)) ++ NUL :: List.replicate m NUL := by
    rw [List.set_append]
    simp [hlen]
  rw [hset]
  exact c_str_append_nul _ _ (fun c hc => (hex_pairs_no_nul _ (raw_bytes_lt raw_hash) c hc).1)

theorem hex_decode_pairs (bytes : List Nat) (h : ∀ b ∈ bytes, b < 256) :
    hex_decode (hex_pairs bytes) = bytes := by
  induction bytes with
  | nil => rfl
  | cons b bs ih =>
    have hb : b < 256 := h b (List.mem_cons_self _ _)
    have h1 := (hex_digit_props (b / 16) (by omega)).2.2
    have h2 := (hex_digit_props (b % 16) (by omega)).2.2
    simp only [hex_pairs, hex_decode, h1, h2, ih (fun x hx => h x (List.mem_cons_of_mem _ hx))]
    congr 1
    omega

theorem hex_pairs_getElem (bytes : List Nat) (i : Nat) (hi : i < bytes.length) :
    (hex_pairs bytes)[2 * i]? = some (hex_digit (bytes.getD i 0 / 16)) ∧
    (hex_pairs bytes)[2 * i + 1]? = some (hex_digit (bytes.getD i 0 % 16)) := by
  induction bytes generalizing i with
  | nil => simp at hi
  | cons b bs ih =>
    cases i with
    | zero => simp [hex_pairs]
    | succ j =>
      have hj : j < bs.length := by simpa using hi
      have := ih j hj
      have e1 : 2 * (j + 1) = (2 * j) + 1 + 1 := by omega
      rw [e1]
      simpa [hex_pairs] using this

theorem raw_bytes_of_digest (d : List Nat) (hd : is_digest d) : raw_bytes d = d := by
  obtain ⟨hlen, hlt⟩ := hd
  apply List.ext_getElem
  · simp [raw_bytes, hlen]
  · intro i h1 h2
    have hmem : d[i] ∈ d := List.getElem_mem _
    simp [raw_bytes, raw_byte, List.getD, List.getElem?_eq_getElem h2,
      Nat.mod_eq_of_lt (hlt _ hmem)]

/-! ## Claims about the scheduler -/

/-- C1: requests enqueued one after another into the empty queue and then
removed from the head until the queue is empty (any fuel of at least the
number of requests empties it) come out as the stable sort of the submissions
by `file_size`: the output is the stable merge sort of the input, it is in
ascending size order, every size class keeps its submission order, and it is
a permutation of the input. -/
theorem sjf_batch_is_stable_sort (reqs : List request_t) (fuel : Nat)
    (hfuel : reqs.length ≤ fuel) :
    drain_queue fuel (enqueue_all [] 0 reqs) = reqs.mergeSort size_le ∧
    sizes_sorted (drain_queue fuel (enqueue_all [] 0 reqs)) ∧
    (∀ s : Int, (drain_queue fuel (enqueue_all [] 0 reqs)).filter
        (fun e => decide (e.file_size = s)) =
      reqs.filter (fun e => decide (e.file_size = s))) ∧
    (drain_queue fuel (enqueue_all [] 0 reqs)).Perm reqs := by
  have hlen : (enqueue_all [] 0 reqs).length ≤ fuel := by
    rw [enqueue_all_length]; simpa using hfuel
  rw [drain_queue_all fuel _ hlen, drain_enqueue_all]
  exact ⟨rfl, mergeSort_sorted reqs, fun s => mergeSort_filter reqs s,
    List.mergeSort_perm reqs size_le⟩

/-- Witness of C1: sizes 50, 10, 30 come out as 10, 30, 50, and two requests
of equal size come out in submission order. -/
theorem sjf_batch_is_stable_sort_witness :
    drain_queue 3 (enqueue_all [] 0
        [mk_req K_example "/f50" "/tmp/c1" 50, mk_req K_example "/f10" "/tmp/c2" 10,
          mk_req K_example "/f30" "/tmp/c3" 30]) =
      [mk_req K_example "/f10" "/tmp/c2" 10, mk_req K_example "/f30" "/tmp/c3" 30,
        mk_req K_example "/f50" "/tmp/c1" 50] ∧
    drain_queue 2 (enqueue_all [] 0
        [mk_req K_example "/A" "/tmp/c1" 7, mk_req K_example "/B" "/tmp/c2" 7]) =
      [mk_req K_example "/A" "/tmp/c1" 7, mk_req K_example "/B" "/tmp/c2" 7] ∧
    drain_queue 3 (enqueue_all [] 0
        [mk_req K_example "/f50" "/tmp/c1" 50, mk_req K_example "/f10" "/tmp/c2" 10,
          mk_req K_example "/f30" "/tmp/c3" 30]) =
      [mk_req K_example "/f50" "/tmp/c1" 50, mk_req K_example "/f10" "/tmp/c2" 10,
          mk_req K_example "/f30" "/tmp/c3" 30].mergeSort size_le :=
  ⟨by decide, by decide,
    (sjf_batch_is_stable_sort
      [mk_req K_example "/f50" "/tmp/c1" 50, mk_req K_example "/f10" "/tmp/c2" 10,
        mk_req K_example "/f30" "/tmp/c3" 30] 3 (by decide)).1⟩

/-- C2: on a queue in ascending size order `enqueue_request` (a total
function) gives a queue that is again in ascending size order, is one longer,
and is the old queue with the new node put in at one place: the old entries
in front of it are exactly an initial stretch, all of size less than or equal
to the new size, the old entries behind it are the rest, all of greater
size. -/
theorem enqueue_request_keeps_order (q : List request_node_t) (req : request_t) (k : Nat)
    (hq : queue_sorted q) :
    queue_sorted (enqueue_request q req k) ∧
    (enqueue_request q req k).length = q.length + 1 ∧
    ∃ before after, q = before ++ after ∧
      enqueue_request q req k = before ++ { data := req, seq := k } :: after ∧
      (∀ e ∈ before, e.data.file_size ≤ req.file_size) ∧
      (∀ e ∈ after, req.file_size < e.data.file_size) :=
  ⟨enqueue_request_sorted q req k hq, enqueue_request_length q req k,
    enqueue_request_split q req k hq⟩

/-- Witness of C2: a request of size 10 put into the queue of sizes 5, 10, 20
lands behind the old entry of size 10 and in front of the one of size 20. -/
theorem enqueue_request_keeps_order_witness :
    queue_sorted [⟨mk_req K_example "/a" "/tmp/c1" 5, 0⟩, ⟨mk_req K_example "/b" "/tmp/c2" 10, 1⟩,
      ⟨mk_req K_example "/c" "/tmp/c3" 20, 2⟩] ∧
    enqueue_request [⟨mk_req K_example "/a" "/tmp/c1" 5, 0⟩,
        ⟨mk_req K_example "/b" "/tmp/c2" 10, 1⟩, ⟨mk_req K_example "/c" "/tmp/c3" 20, 2⟩]
        (mk_req K_example "/d" "/tmp/c4" 10) 3 =
      [⟨mk_req K_example "/a" "/tmp/c1" 5, 0⟩, ⟨mk_req K_example "/b" "/tmp/c2" 10, 1⟩,
        ⟨mk_req K_example "/d" "/tmp/c4" 10, 3⟩, ⟨mk_req K_example "/c" "/tmp/c3" 20, 2⟩] ∧
    queue_sorted (enqueue_request [⟨mk_req K_example "/a" "/tmp/c1" 5, 0⟩,
        ⟨mk_req K_example "/b" "/tmp/c2" 10, 1⟩, ⟨mk_req K_example "/c" "/tmp/c3" 20, 2⟩]
        (mk_req K_example "/d" "/tmp/c4" 10) 3) :=
  ⟨by decide, by decide,
    (enqueue_request_keeps_order _ (mk_req K_example "/d" "/tmp/c4" 10) 3
      (show queue_sorted [⟨mk_req K_example "/a" "/tmp/c1" 5, 0⟩,
        ⟨mk_req K_example "/b" "/tmp/c2" 10, 1⟩, ⟨mk_req K_example "/c" "/tmp/c3" 20, 2⟩]
        by decide)).1⟩

/-- C3: in every queue state reached from the empty queue by any interleaving
of `enqueue_request` calls and dequeues, if the queue is not empty the dequeue
removes exactly the head and leaves the other entries queued in unchanged
order; the head has a size less than or equal to that of every entry that
stays, and every entry of the same size that stays was enqueued later.  The
ghost numbers this is stated with are the positions of the entries in the
sequence of `enqueue_request` calls. -/
theorem dequeue_takes_earliest_smallest (ops : List queue_op) (hd : request_node_t)
    (tl : List request_node_t) (h : (queue_run ops).request_queue = hd :: tl) :
    dequeue_request (queue_run ops).request_queue = some (hd, tl) ∧
    (queue_step (queue_run ops) queue_op.dequeue).request_queue = tl ∧
    (∀ e ∈ tl, hd.data.file_size ≤ e.data.file_size) ∧
    (∀ e ∈ tl, e.data.file_size = hd.data.file_size → hd.seq < e.seq) ∧
    queue_stamps_ok (enqueued_reqs ops) (queue_run ops) := by
  obtain ⟨hf, hs⟩ := queue_run_inv ops
  rw [h] at hf
  have hrel := (List.pairwise_cons.mp hf).1
  refine ⟨by rw [h]; rfl, queue_step_request_queue_dequeue _ hd tl h,
    fun e he => (hrel e he).1, fun e he heq => (hrel e he).2 heq.symm, hs⟩

/-- Witness of C3: after enqueueing sizes 10, 10, 5, dequeueing (the 5 leaves)
and enqueueing another 10, the head is the first of the three entries of size
10. -/
theorem dequeue_takes_earliest_smallest_witness :
    (queue_run [.enqueue (mk_req K_example "/a" "/tmp/c1" 10),
        .enqueue (mk_req K_example "/b" "/tmp/c2" 10),
        .enqueue (mk_req K_example "/c" "/tmp/c3" 5), .dequeue,
        .enqueue (mk_req K_example "/d" "/tmp/c4" 10)]).request_queue =
      ⟨mk_req K_example "/a" "/tmp/c1" 10, 0⟩ ::
        [⟨mk_req K_example "/b" "/tmp/c2" 10, 1⟩, ⟨mk_req K_example "/d" "/tmp/c4" 10, 3⟩] ∧
    (queue_step (queue_run [.enqueue (mk_req K_example "/a" "/tmp/c1" 10),
        .enqueue (mk_req K_example "/b" "/tmp/c2" 10),
        .enqueue (mk_req K_example "/c" "/tmp/c3" 5), .dequeue,
        .enqueue (mk_req K_example "/d" "/tmp/c4" 10)]) queue_op.dequeue).request_queue =
      [⟨mk_req K_example "/b" "/tmp/c2" 10, 1⟩, ⟨mk_req K_example "/d" "/tmp/c4" 10, 3⟩] :=
  ⟨by decide,
    (dequeue_takes_earliest_smallest _ ⟨mk_req K_example "/a" "/tmp/c1" 10, 0⟩
      [⟨mk_req K_example "/b" "/tmp/c2" 10, 1⟩, ⟨mk_req K_example "/d" "/tmp/c4" 10, 3⟩]
      (by decide)).2.1⟩

/-! ## Cache lemmas -/

theorem new_cache_path_short (K : common_h) (file_path hash : c_string)
    (h : file_path.length < K.MAX_PATH) : new_cache_path K file_path hash = file_path := by
  simp [new_cache_path, h]

theorem cache_scan_miss (hash_cache : List cache_node_t) (req : request_t) (res : response_t)
    (hmiss : ∀ c ∈ hash_cache, c.path ≠ req.file_path) :
    cache_scan hash_cache req res = res := by
  induction hash_cache with
  | nil => rfl
  | cons c next ih =>
    have h1 : c.path ≠ req.file_path := hmiss c (List.mem_cons_self _ _)
    simp only [cache_scan, h1, if_false]
    exact ih (fun x hx => hmiss x (List.mem_cons_of_mem _ hx))

theorem cache_scan_hit (hash_cache : List cache_node_t) (req : request_t) (res : response_t)
    (c : cache_node_t) (hc : c.path = req.file_path) :
    cache_scan (c :: hash_cache) req res = { res with hash := c.hash, from_cache := 1 } := by
  simp [cache_scan, hc]

theorem cache_scan_skip (hash_cache : List cache_node_t) (req : request_t) (res : response_t)
    (c : cache_node_t) (hc : c.path ≠ req.file_path) :
    cache_scan (c :: hash_cache) req res = cache_scan hash_cache req res := by
  simp [cache_scan, hc]

/-- What a scan that started with `from_cache = 0` found. -/
theorem cache_scan_found (hash_cache : List cache_node_t) (req : request_t) (res : response_t)
    (h0 : res.from_cache = 0) (h1 : (cache_scan hash_cache req res).from_cache = 1) :
    ∃ c ∈ hash_cache, c.path = req.file_path ∧ (cache_scan hash_cache req res).hash = c.hash := by
  induction hash_cache with
  | nil => simp [cache_scan, h0] at h1
  | cons c next ih =>
    by_cases hc : c.path = req.file_path
    · exact ⟨c, List.mem_cons_self _ _, hc, by simp [cache_scan, hc]⟩
    · rw [cache_scan_skip _ _ _ _ hc] at h1 ⊢
      obtain ⟨c', hc', hp, hh⟩ := ih h1
      exact ⟨c', List.mem_cons_of_mem _ hc', hp, hh⟩

theorem worker_thread_body_miss_present (K : common_h) (hash_cache : List cache_node_t)
    (req : request_t) (raw_hash : List Nat)
    (hmiss : ∀ c ∈ hash_cache, c.path ≠ req.file_path) :
    worker_thread_body K hash_cache req true raw_hash =
      ({ status := 0, from_cache := 0, hash := hex_encode K raw_hash },
        cache_insert K hash_cache req.file_path (hex_encode K raw_hash)) := by
  simp [worker_thread_body, cache_scan_miss _ _ _ hmiss, worker_compute, res_init]

theorem worker_thread_body_miss_absent (K : common_h) (hash_cache : List cache_node_t)
    (req : request_t) (raw_hash : List Nat)
    (hmiss : ∀ c ∈ hash_cache, c.path ≠ req.file_path) :
    worker_thread_body K hash_cache req false raw_hash =
      ({ status := 0, from_cache := 0, hash := ERRORE_FILE_NOT_FOUND }, hash_cache) := by
  simp [worker_thread_body, cache_scan_miss _ _ _ hmiss, worker_compute, res_init]

theorem worker_thread_body_hit (K : common_h) (hash_cache : List cache_node_t)
    (req : request_t) (file_exists : Bool) (raw_hash : List Nat) (c : cache_node_t)
    (hc : c.path = req.file_path) :
    worker_thread_body K (c :: hash_cache) req file_exists raw_hash =
      ({ status := 0, from_cache := 1, hash := c.hash }, c :: hash_cache) := by
  simp [worker_thread_body, cache_scan_hit _ _ _ _ hc, worker_compute, res_init]

/-! ## Claims about the cache and the worker -/

set_option maxRecDepth 1000000 in
/-- C4 as stated fails: the path field of the request holds no NUL (the path
has `MAX_PATH` characters or more), the cache is empty, the file exists and
the digest is the same both times, yet the second of two identical requests
misses the cache again, because the node stored for the first one carries as
path the first `MAX_PATH` characters run on with the hash. -/
theorem cache_second_miss_counterexample :
    (worker_thread_body K_example [] long_req true (List.range 32)).1.from_cache = 0 ∧
    (worker_thread_body K_example
      (worker_thread_body K_example [] long_req true (List.range 32)).2 long_req true
      (List.range 32)).1.from_cache = 0 ∧
    (worker_thread_body K_example
      (worker_thread_body K_example [] long_req true (List.range 32)).2 long_req true
      (List.range 32)).2.length = 2 := by
  decide

/-- C4 amended: when the request's path is shorter than `MAX_PATH`, the cache
holds no entry for it, the file exists and `digest_file` leaves the same bytes
both times, processing the same request twice in a row gives a first response
with `from_cache = 0`, a second with `from_cache = 1`, and the same hash string
in both (the hex encoding of the digest). -/
theorem cache_miss_then_hit (K : common_h) (hash_cache : List cache_node_t) (req : request_t)
    (raw_hash : List Nat) (hpath : req.file_path.length < K.MAX_PATH)
    (hmiss : ∀ c ∈ hash_cache, c.path ≠ req.file_path) :
    (worker_thread_body K hash_cache req true raw_hash).1.from_cache = 0 ∧
    (worker_thread_body K (worker_thread_body K hash_cache req true raw_hash).2 req true
      raw_hash).1.from_cache = 1 ∧
    (worker_thread_body K (worker_thread_body K hash_cache req true raw_hash).2 req true
      raw_hash).1.hash = (worker_thread_body K hash_cache req true raw_hash).1.hash ∧
    (worker_thread_body K hash_cache req true raw_hash).1.hash = hex_encode K raw_hash := by
  rw [worker_thread_body_miss_present K hash_cache req raw_hash hmiss]
  unfold cache_insert
  rw [worker_thread_body_hit K hash_cache req true raw_hash _
    (by simpa using new_cache_path_short K _ _ hpath)]
  simp

/-- Witness of C4 amended: the empty cache and a request for `/tmp/f`. -/
theorem cache_miss_then_hit_witness :
    (mk_req K_example "/tmp/f" "/tmp/c1" 3).file_path.length < K_example.MAX_PATH ∧
    (worker_thread_body K_example [] (mk_req K_example "/tmp/f" "/tmp/c1" 3) true
      (List.range 32)).1.from_cache = 0 ∧
    (worker_thread_body K_example (worker_thread_body K_example [] (mk_req K_example "/tmp/f" "/tmp/c1" 3)
      true (List.range 32)).2 (mk_req K_example "/tmp/f" "/tmp/c1" 3) true
      (List.range 32)).1.from_cache = 1 :=
  ⟨by decide,
    (cache_miss_then_hit K_example [] (mk_req K_example "/tmp/f" "/tmp/c1" 3) (List.range 32)
      (by decide) (by simp)).1,
    (cache_miss_then_hit K_example [] (mk_req K_example "/tmp/f" "/tmp/c1" 3) (List.range 32)
      (by decide) (by simp)).2.1⟩

/-- C5 as stated fails: with the path already in the cache (put there by an
earlier request, when the file still existed) a request for the now missing
file is answered from the cache, with `from_cache = 1` and the cached hash
instead of the sentinel. -/
theorem missing_file_cached_counterexample :
    (worker_thread_body K_example
      (worker_thread_body K_example [] (mk_req K_example "/tmp/f" "/tmp/c1" 3) true
        (List.range 32)).2
      (mk_req K_example "/tmp/f" "/tmp/c2" 3) false []).1.from_cache = 1 ∧
    (worker_thread_body K_example
      (worker_thread_body K_example [] (mk_req K_example "/tmp/f" "/tmp/c1" 3) true
        (List.range 32)).2
      (mk_req K_example "/tmp/f" "/tmp/c2" 3) false []).1.hash ≠ ERRORE_FILE_NOT_FOUND := by
  decide

/-- C5 amended: for every cache that holds no entry for the request's path,
a request whose file does not exist when the worker processes it gets the
sentinel `ERRORE_FILE_NOT_FOUND` as hash and `from_cache = 0`. -/
theorem missing_file_uncached (K : common_h) (hash_cache : List cache_node_t)
    (req : request_t) (raw_hash : List Nat)
    (hmiss : ∀ c ∈ hash_cache, c.path ≠ req.file_path) :
    (worker_thread_body K hash_cache req false raw_hash).1.hash = ERRORE_FILE_NOT_FOUND ∧
    (worker_thread_body K hash_cache req false raw_hash).1.from_cache = 0 := by
  rw [worker_thread_body_miss_absent K hash_cache req raw_hash hmiss]
  exact ⟨rfl, rfl⟩

/-- Witness of C5 amended: a cache with an entry for another path. -/
theorem missing_file_uncached_witness :
    (∀ c ∈ [({ path := "/tmp/g".toList, hash := hex_encode K_example [] } : cache_node_t)],
      c.path ≠ (mk_req K_example "/tmp/f" "/tmp/c1" 3).file_path) ∧
    (worker_thread_body K_example [{ path := "/tmp/g".toList, hash := hex_encode K_example [] }]
      (mk_req K_example "/tmp/f" "/tmp/c1" 3) false []).1.hash = ERRORE_FILE_NOT_FOUND :=
  ⟨by decide,
    (missing_file_uncached K_example [{ path := "/tmp/g".toList, hash := hex_encode K_example [] }]
      (mk_req K_example "/tmp/f" "/tmp/c1" 3) [] (by decide)).1⟩

set_option maxRecDepth 1000000 in
/-- C6 as stated fails for a path `p` of `MAX_PATH` characters or more: after
the insert of `(p, h)` into the empty cache the scan for `p` finds nothing,
and the scan for another path, the first `MAX_PATH` characters of `p` run on
with `h`, finds `h` although the cache before the insert held nothing for
it. -/
theorem cache_scan_long_path_counterexample :
    cache_scan (cache_insert K_example [] long_path (hex_encode K_example (List.range 32)))
      long_req res_init = res_init ∧
    (List.replicate 256 'a' ++ hex_encode K_example (List.range 32) ≠ long_path ∧
      cache_scan (cache_insert K_example [] long_path (hex_encode K_example (List.range 32)))
          { long_req with
            file_path := List.replicate 256 'a' ++ hex_encode K_example (List.range 32) }
          res_init =
        { res_init with hash := hex_encode K_example (List.range 32), from_cache := 1 } ∧
      cache_scan []
          { long_req with
            file_path := List.replicate 256 'a' ++ hex_encode K_example (List.range 32) }
          res_init = res_init) := by
  decide

/-- C6 amended: for a path `p` shorter than `MAX_PATH`, after inserting
`(p, h)` in front of a cache, the scan for `p` gives `h` with `from_cache = 1`
whatever older entries for `p` there are, the scan for any other path gives
what it gave before, and the cache is the old cache with exactly one new node
in front. -/
theorem cache_scan_after_insert (K : common_h) (hash_cache : List cache_node_t)
    (p h : c_string) (req : request_t) (res : response_t) (hp : p.length < K.MAX_PATH) :
    (req.file_path = p →
      cache_scan (cache_insert K hash_cache p h) req res =
        { res with hash := h, from_cache := 1 }) ∧
    (req.file_path ≠ p →
      cache_scan (cache_insert K hash_cache p h) req res = cache_scan hash_cache req res) ∧
    cache_insert K hash_cache p h = { path := p, hash := h } :: hash_cache ∧
    (cache_insert K hash_cache p h).length = hash_cache.length + 1 := by
  have hins : cache_insert K hash_cache p h = { path := p, hash := h } :: hash_cache := by
    simp [cache_insert, new_cache_path_short K p h hp]
  rw [hins]
  refine ⟨fun hq => ?_, fun hq => ?_, rfl, rfl⟩
  · exact cache_scan_hit _ _ _ _ hq.symm
  · exact cache_scan_skip _ _ _ _ (fun h' => hq h'.symm)

/-- Witness of C6 amended: the cache already holds an older entry for the
path. -/
theorem cache_scan_after_insert_witness :
    "/tmp/f".toList.length < K_example.MAX_PATH ∧
    cache_scan (cache_insert K_example [{ path := "/tmp/f".toList, hash := "old".toList }]
        "/tmp/f".toList "new".toList) (mk_req K_example "/tmp/f" "/tmp/c1" 3) res_init =
      { res_init with hash := "new".toList, from_cache := 1 } :=
  ⟨by decide,
    (cache_scan_after_insert K_example [{ path := "/tmp/f".toList, hash := "old".toList }]
      "/tmp/f".toList "new".toList (mk_req K_example "/tmp/f" "/tmp/c1" 3) res_init
      (by decide)).1 rfl⟩

/-- C10: on a cache miss for an existing file whose digest is the 32-byte
value `d`, the hash written into the response has exactly 64 characters, each
one of `0-9a-f`; characters `2i` and `2i+1` are the high and the low hex digit
of byte `i`; decoding the string gives `d` back, and no other digest has the
same string.  The buffer `res.hash` holds 64 characters and the NUL. -/
theorem hex_hash_of_digest (K : common_h) (hash_cache : List cache_node_t) (req : request_t)
    (d : List Nat) (hK : 64 < K.HASH_SIZE) (hd : is_digest d)
    (hmiss : ∀ c ∈ hash_cache, c.path ≠ req.file_path) :
    (worker_thread_body K hash_cache req true d).1.hash = hex_encode K d ∧
    (hex_encode K d).length = 64 ∧
    (∀ c ∈ hex_encode K d, is_hex_char c = true) ∧
    (∀ i < 32, (hex_encode K d)[2 * i]? = some (hex_digit (d.getD i 0 / 16)) ∧
      (hex_encode K d)[2 * i + 1]? = some (hex_digit (d.getD i 0 % 16))) ∧
    hex_decode (hex_encode K d) = d ∧
    (∀ d', is_digest d' → hex_encode K d' = hex_encode K d → d' = d) := by
  have henc : hex_encode K d = hex_pairs d := by
    rw [hex_encode_eq K d hK, raw_bytes_of_digest d hd]
  refine ⟨by rw [worker_thread_body_miss_present K hash_cache req d hmiss], ?_, ?_, ?_, ?_, ?_⟩
  · rw [henc, hex_pairs_length, hd.1]
  · intro c hc
    rw [henc] at hc
    exact (hex_pairs_no_nul d hd.2 c hc).2
  · intro i hi
    rw [henc]
    exact hex_pairs_getElem d i (by rw [hd.1]; exact hi)
  · rw [henc]
    exact hex_decode_pairs d hd.2
  · intro d' hd' heq
    have h1 : hex_encode K d' = hex_pairs d' := by
      rw [hex_encode_eq K d' hK, raw_bytes_of_digest d' hd']
    rw [h1, henc] at heq
    have := congrArg hex_decode heq
    rwa [hex_decode_pairs d' hd'.2, hex_decode_pairs d hd.2] at this

/-- Witness of C10: the SHA-256 digest of the empty input. -/
theorem hex_hash_of_digest_witness :
    is_digest [0xe3, 0xb0, 0xc4, 0x42, 0x98, 0xfc, 0x1c, 0x14, 0x9a, 0xfb, 0xf4, 0xc8, 0x99,
      0x6f, 0xb9, 0x24, 0x27, 0xae, 0x41, 0xe4, 0x64, 0x9b, 0x93, 0x4c, 0xa4, 0x95, 0x99,
      0x1b, 0x78, 0x52, 0xb8, 0x55] ∧
    (worker_thread_body K_example [] (mk_req K_example "/tmp/empty" "/tmp/c1" 0) true
      [0xe3, 0xb0, 0xc4, 0x42, 0x98, 0xfc, 0x1c, 0x14, 0x9a, 0xfb, 0xf4, 0xc8, 0x99,
        0x6f, 0xb9, 0x24, 0x27, 0xae, 0x41, 0xe4, 0x64, 0x9b, 0x93, 0x4c, 0xa4, 0x95, 0x99,
        0x1b, 0x78, 0x52, 0xb8, 0x55]).1.hash =
      "e3b0c44298fc1c149afbf4c8996fb92427ae41e4649b934ca495991b7852b855".toList ∧
    (hex_encode K_example [0xe3, 0xb0, 0xc4, 0x42, 0x98, 0xfc, 0x1c, 0x14, 0x9a, 0xfb, 0xf4,
      0xc8, 0x99, 0x6f, 0xb9, 0x24, 0x27, 0xae, 0x41, 0xe4, 0x64, 0x9b, 0x93, 0x4c, 0xa4, 0x95,
      0x99, 0x1b, 0x78, 0x52, 0xb8, 0x55]).length = 64 :=
  ⟨by decide, by decide,
    (hex_hash_of_digest K_example [] (mk_req K_example "/tmp/empty" "/tmp/c1" 0) _
      (by decide) (by decide) (by simp)).2.1⟩

/-! ## Claims about the dispatcher -/

theorem main_loop_body_keeps_cache (K : common_h) (s : server_state) (n : Int) (req : request_t)
    (fifo_opened : Bool) : (main_loop_body K s n req fifo_opened).hash_cache = s.hash_cache := by
  unfold main_loop_body
  split_ifs <;> rfl

theorem main_loop_body_query (K : common_h) (s : server_state) (n : Int) (req : request_t)
    (hn : 0 < n) (hq : req.type = K.REQ_QUERY_CACHE) :
    main_loop_body K s n req true =
      { s with listings := s.listings ++ [(req.client_fifo, query_cache_dump s.hash_cache)] } ∧
    main_loop_body K s n req false = s := by
  simp [main_loop_body, hn, hq]

/-- C8: a `REQ_QUERY_CACHE` request read by the dispatcher while the cache is
empty makes, on the requester's FIFO once it is open, exactly one write: the
fixed message, which is a single line (one newline, at its end) and is not the
line of any cache entry.  Whether or not the FIFO opens, the cache and the
request queue are what they were. -/
theorem query_empty_cache (K : common_h) (s : server_state) (n : Int) (req : request_t)
    (hn : 0 < n) (hq : req.type = K.REQ_QUERY_CACHE) (hc : s.hash_cache = []) :
    (main_loop_body K s n req true).listings = s.listings ++ [(req.client_fifo, [cache_empty_msg])] ∧
    cache_empty_msg.count '\n' = 1 ∧ cache_empty_msg.getLast? = some '\n' ∧
    (∀ c : cache_node_t, cache_line c ≠ cache_empty_msg) ∧
    (∀ fifo_opened, (main_loop_body K s n req fifo_opened).hash_cache = s.hash_cache ∧
      (main_loop_body K s n req fifo_opened).request_queue = s.request_queue) := by
  obtain ⟨h1, h2⟩ := main_loop_body_query K s n req hn hq
  refine ⟨by rw [h1, hc]; rfl, by decide, by decide, ?_, ?_⟩
  · intro c hcl
    have := congrArg List.head? hcl
    simp [cache_line, cache_empty_msg, List.take] at this
  · intro fifo_opened
    cases fifo_opened
    · rw [h2]; exact ⟨rfl, rfl⟩
    · rw [h1]; exact ⟨rfl, rfl⟩

/-- Witness of C8: a listing request right after start-up. -/
theorem query_empty_cache_witness :
    (main_loop_body K_example server_init 64
      { type := 1, file_path := [], client_fifo := "/tmp/c9".toList, file_size := 0 }
      true).listings = [("/tmp/c9".toList, [cache_empty_msg])] :=
  (query_empty_cache K_example server_init 64
    { type := 1, file_path := [], client_fifo := "/tmp/c9".toList, file_size := 0 }
    (by decide) rfl rfl).1

/-- C9 as stated fails: the line written for the entry with path `/tmp/f` and
hash `abc` is `File: /tmp/f | Hash: abc` with a newline, not `/tmp/f | abc`
(with or without a newline). -/
theorem cache_line_counterexample :
    (main_loop_body K_example
      { server_init with hash_cache := [{ path := "/tmp/f".toList, hash := "abc".toList }] } 64
      { type := 1, file_path := [], client_fifo := "/tmp/c9".toList, file_size := 0 }
      true).listings = [("/tmp/c9".toList, ["File: /tmp/f | Hash: abc\n".toList])] ∧
    cache_line { path := "/tmp/f".toList, hash := "abc".toList } ≠ "/tmp/f | abc".toList ∧
    cache_line { path := "/tmp/f".toList, hash := "abc".toList } ≠ "/tmp/f | abc\n".toList := by
  decide

/-- C9 amended: for a non-empty cache the dispatcher makes, on the requester's
FIFO once it is open, exactly one write per cache entry, in the order of the
cache list (most recently inserted first, a path cached twice is written
twice); the write for an entry with path `P` and hash `H` is the first 511
characters of the line `File: P | Hash: H` with its newline, which is the
whole line whenever `P` and `H` together have at most 495 characters. -/
theorem query_cache_listing (K : common_h) (s : server_state) (n : Int) (req : request_t)
    (hn : 0 < n) (hq : req.type = K.REQ_QUERY_CACHE) (hc : s.hash_cache ≠ []) :
    (main_loop_body K s n req true).listings =
      s.listings ++ [(req.client_fifo, s.hash_cache.map cache_line)] ∧
    (s.hash_cache.map cache_line).length = s.hash_cache.length ∧
    (∀ c : cache_node_t, cache_line c =
      ("File: ".toList ++ c.path ++ " | Hash: ".toList ++ c.hash ++ ['\n']).take 511) ∧
    (∀ c : cache_node_t, c.path.length + c.hash.length ≤ 495 →
      cache_line c = "File: ".toList ++ c.path ++ " | Hash: ".toList ++ c.hash ++ ['\n']) := by
  obtain ⟨h1, -⟩ := main_loop_body_query K s n req hn hq
  refine ⟨?_, by simp, fun c => rfl, ?_⟩
  · rw [h1]
    cases hs : s.hash_cache with
    | nil => exact absurd hs hc
    | cons c rest => rfl
  · intro c hlen
    unfold cache_line
    apply List.take_of_length_le
    simp only [List.length_append, List.length_cons, List.length_nil]
    have h1 : "File: ".toList.length = 6 := by decide
    have h2 : " | Hash: ".toList.length = 9 := by decide
    omega

/-- Witness of C9 amended: a cache holding the same path twice. -/
theorem query_cache_listing_witness :
    (main_loop_body K_example
      { server_init with hash_cache := [{ path := "/tmp/f".toList, hash := "abc".toList },
        { path := "/tmp/f".toList, hash := "abd".toList }] } 64
      { type := 1, file_path := [], client_fifo := "/tmp/c9".toList, file_size := 0 }
      true).listings =
      [("/tmp/c9".toList, ["File: /tmp/f | Hash: abc\n".toList,
        "File: /tmp/f | Hash: abd\n".toList])] :=
  (query_cache_listing K_example
    { server_init with hash_cache := [{ path := "/tmp/f".toList, hash := "abc".toList },
        { path := "/tmp/f".toList, hash := "abd".toList }] } 64
    { type := 1, file_path := [], client_fifo := "/tmp/c9".toList, file_size := 0 }
    (by decide) rfl (by simp)).1

/-! ## The cache invariant over all schedules -/

theorem hash_valid_mono (K : common_h) (digests extra : List digest_call)
    (path hash : c_string) (h : hash_valid K digests path hash) :
    hash_valid K (digests ++ extra) path hash := by
  obtain ⟨call, hmem, hrest⟩ := h
  exact ⟨call, List.mem_append_left _ hmem, hrest⟩

theorem pc_inv_mono (K : common_h) (digests extra : List digest_call)
    (pc : worker_pc) (h : pc_inv K digests pc) : pc_inv K (digests ++ extra) pc := by
  cases pc with
  | wait => trivial
  | scan req => exact h
  | compute req res => exact ⟨h.1, fun hf => hash_valid_mono K _ _ _ _ (h.2 hf)⟩
  | update req res => exact ⟨h.1, hash_valid_mono K _ _ _ _ h.2⟩
  | reply req res => exact fun hf => hash_valid_mono K _ _ _ _ (h hf)

theorem main_loop_body_inv (K : common_h) (s : server_state) (n : Int) (req : request_t)
    (fifo_opened : Bool) (hreq : req_ok K req) (h : server_inv K s) :
    server_inv K (main_loop_body K s n req fifo_opened) := by
  obtain ⟨hq, hc, hw, hr⟩ := h
  unfold main_loop_body
  split_ifs
  · exact ⟨hq, hc, hw, hr⟩
  · exact ⟨hq, hc, hw, hr⟩
  · refine ⟨?_, hc, hw, hr⟩
    intro nd hnd
    rcases (enqueue_request_mem _ _ _ nd).mp hnd with rfl | hnd
    · exact hreq
    · exact hq nd hnd
  · exact ⟨hq, hc, hw, hr⟩
  · exact ⟨hq, hc, hw, hr⟩

/-- One worker step keeps the global part of the invariant, keeps the
invariant of every other worker's locals, and establishes it for the new
position. -/
theorem worker_step_inv (K : common_h) (s : server_state) (pc : worker_pc)
    (file_exists : Bool) (digest : Option (List Nat)) (stale : List Nat) (fifo_opened : Bool)
    (h : server_inv K s) (hpc : pc_inv K s.digests pc) :
    server_inv K (worker_step K s pc file_exists digest stale fifo_opened).1 ∧
    pc_inv K (worker_step K s pc file_exists digest stale fifo_opened).1.digests
      (worker_step K s pc file_exists digest stale fifo_opened).2 := by
  obtain ⟨hq, hc, hw, hr⟩ := h
  cases pc with
  | wait =>
    cases hqueue : s.request_queue with
    | nil =>
      simp only [worker_step, dequeue_request, hqueue]
      exact ⟨⟨by simp [hqueue], hc, hw, hr⟩, trivial⟩
    | cons nd rest =>
      simp only [worker_step, dequeue_request, hqueue]
      rw [hqueue] at hq
      exact ⟨⟨fun x hx => hq x (List.mem_cons_of_mem _ hx), hc, hw, hr⟩,
        hq nd (List.mem_cons_self _ _)⟩
  | scan req =>
    simp only [worker_step]
    refine ⟨⟨hq, hc, hw, hr⟩, hpc, ?_⟩
    intro hf
    obtain ⟨c, hcm, hp, hh⟩ := cache_scan_found s.hash_cache req res_init rfl hf
    rw [hh, ← hp]
    exact hc c hcm
  | compute req res =>
    by_cases hfc : res.from_cache = 0
    · cases file_exists with
      | false =>
        simp only [worker_step, worker_compute, hfc, if_true, Bool.not_false]
        refine ⟨⟨hq, hc, hw, hr⟩, ?_⟩
        intro hf
        simp [hfc] at hf
      | true =>
        simp only [worker_step, worker_compute, hfc, if_true, Bool.not_true]
        refine ⟨⟨hq, fun c hcm => hash_valid_mono K _ _ _ _ (hc c hcm),
          fun p hp => pc_inv_mono K _ _ _ (hw p hp),
          fun rr hrr hf => hash_valid_mono K _ _ _ _ (hr rr hrr hf)⟩, hpc.1, ?_⟩
        refine ⟨{ path := req.file_path, digest := digest, stale := stale }, by simp, rfl,
          rfl, ?_⟩
        intro d hd
        simp only at hd
        simp [digest_file, hd]
    · simp only [worker_step, worker_compute, hfc, if_false]
      exact ⟨⟨hq, hc, hw, hr⟩, hpc.2⟩
  | update req res =>
    simp only [worker_step]
    refine ⟨⟨hq, ?_, hw, hr⟩, fun _ => hpc.2⟩
    intro c hcm
    simp only [cache_insert, List.mem_cons] at hcm
    rcases hcm with rfl | hcm
    · simp only [new_cache_path_short K _ _ hpc.1]
      exact hpc.2
    · exact hc c hcm
  | reply req res =>
    cases fifo_opened with
    | false =>
      simp only [worker_step]
      exact ⟨⟨hq, hc, hw, hr⟩, trivial⟩
    | true =>
      simp only [worker_step, if_true]
      refine ⟨⟨hq, hc, hw, ?_⟩, trivial⟩
      intro rr hrr hf
      rcases List.mem_append.mp hrr with hrr | hrr
      · exact hr rr hrr hf
      · simp only [List.mem_singleton] at hrr
        subst hrr
        exact hpc hf

theorem worker_step_workers (K : common_h) (s : server_state) (pc : worker_pc)
    (file_exists : Bool) (digest : Option (List Nat)) (stale : List Nat) (fifo_opened : Bool) :
    (worker_step K s pc file_exists digest stale fifo_opened).1.workers = s.workers := by
  cases pc with
  | wait =>
    cases hqueue : s.request_queue <;> simp [worker_step, dequeue_request, hqueue]
  | scan req => rfl
  | compute req res =>
    simp only [worker_step, worker_compute]
    split_ifs <;> rfl
  | update req res => rfl
  | reply req res =>
    simp only [worker_step]
    split_ifs <;> rfl

theorem server_step_inv (K : common_h) (s : server_state) (e : event)
    (he : event_ok K e) (h : server_inv K s) : server_inv K (server_step K s e) := by
  cases e with
  | inbound n req fifo_opened => exact main_loop_body_inv K s n req fifo_opened he h
  | worker w file_exists digest stale fifo_opened =>
    simp only [server_step]
    cases hget : s.workers.get? w with
    | none => exact h
    | some pc =>
      have hpc : pc_inv K s.digests pc := h.2.2.1 pc (List.get?_mem hget)
      obtain ⟨⟨hq, hc, hw, hr⟩, hpc'⟩ :=
        worker_step_inv K s pc file_exists digest stale fifo_opened h hpc
      refine ⟨hq, hc, ?_, hr⟩
      intro p hp
      rcases List.mem_or_eq_of_mem_set hp with hp | rfl
      · exact hw p hp
      · exact hpc'

theorem server_foldl_inv (K : common_h) (events : List event) (s : server_state)
    (hev : ∀ e ∈ events, event_ok K e) (h : server_inv K s) :
    server_inv K (events.foldl (server_step K) s) := by
  induction events generalizing s with
  | nil => exact h
  | cons e es ih =>
    exact ih (server_step K s e) (fun x hx => hev x (List.mem_cons_of_mem _ hx))
      (server_step_inv K s e (hev e (List.mem_cons_self _ _)) h)

theorem server_init_inv (K : common_h) : server_inv K server_init := by
  refine ⟨by simp [server_init], by simp [server_init], ?_, by simp [server_init]⟩
  intro pc hpc
  have : pc = worker_pc.wait := by
    simp only [server_init] at hpc
    exact List.eq_of_mem_replicate hpc
  rw [this]
  trivial

theorem server_run_inv (K : common_h) (events : List event)
    (hev : ∀ e ∈ events, event_ok K e) : server_inv K (server_run K events) :=
  server_foldl_inv K events server_init hev (server_init_inv K)

theorem hex_encode_shape (K : common_h) (raw_hash : List Nat) (hK : 64 < K.HASH_SIZE) :
    (hex_encode K raw_hash).length = 64 ∧ hex_encode K raw_hash ≠ ERRORE_FILE_NOT_FOUND ∧
      ∀ c ∈ hex_encode K raw_hash, is_hex_char c = true := by
  rw [hex_encode_eq K raw_hash hK]
  have hlen : (hex_pairs (raw_bytes raw_hash)).length = 64 := by
    rw [hex_pairs_length]; simp [raw_bytes]
  refine ⟨hlen, ?_, fun c hc => (hex_pairs_no_nul _ (raw_bytes_lt raw_hash) c hc).2⟩
  intro heq
  rw [heq] at hlen
  exact absurd hlen (by decide)

theorem hash_valid_shape (K : common_h) (digests : List digest_call)
    (path hash : c_string) (hK : 64 < K.HASH_SIZE) (h : hash_valid K digests path hash) :
    hash.length = 64 ∧ hash ≠ ERRORE_FILE_NOT_FOUND ∧ ∀ c ∈ hash, is_hex_char c = true := by
  obtain ⟨call, -, -, rfl, -⟩ := h
  exact hex_encode_shape K _ hK

/-! ## The sequential worker and the queue inside the transition system -/

/-- Run back to back, the steps of one worker do what `worker_thread_body`
says: same cache afterwards, and the response it computes is the one
written. -/
theorem worker_iteration_eq_process (K : common_h) (s : server_state) (req : request_t)
    (file_exists : Bool) (digest : Option (List Nat)) (stale : List Nat) :
    (worker_iteration K s req file_exists digest stale true).hash_cache =
      (worker_thread_body K s.hash_cache req file_exists (digest_file digest stale)).2 ∧
    (worker_iteration K s req file_exists digest stale true).replies =
      s.replies ++
        [(req, (worker_thread_body K s.hash_cache req file_exists
          (digest_file digest stale)).1)] := by
  by_cases hfc : (cache_scan s.hash_cache req res_init).from_cache = 0
  · cases file_exists <;>
      simp [worker_iteration, worker_step, worker_thread_body, worker_compute, hfc]
  · simp [worker_iteration, worker_step, worker_thread_body, worker_compute, hfc]

theorem queue_run_snoc (ops : List queue_op) (op : queue_op) :
    queue_run (ops ++ [op]) = queue_step (queue_run ops) op := by
  simp [queue_run, List.foldl_append]

theorem server_step_queue (K : common_h) (s : server_state) (e : event) (ops : List queue_op)
    (hq : s.request_queue = (queue_run ops).request_queue)
    (hn : s.enqueued = (queue_run ops).enqueued) :
    ∃ ops', (server_step K s e).request_queue = (queue_run ops').request_queue ∧
      (server_step K s e).enqueued = (queue_run ops').enqueued := by
  cases e with
  | inbound n req fifo_opened =>
    simp only [server_step, main_loop_body]
    split_ifs
    · exact ⟨ops, hq, hn⟩
    · exact ⟨ops, hq, hn⟩
    · refine ⟨ops ++ [queue_op.enqueue req], ?_, ?_⟩
      · rw [queue_run_snoc]; simp [queue_step, hq, hn]
      · rw [queue_run_snoc]; simp [queue_step, hn]
    · exact ⟨ops, hq, hn⟩
    · exact ⟨ops, hq, hn⟩
  | worker w file_exists digest stale fifo_opened =>
    simp only [server_step]
    cases hget : s.workers.get? w with
    | none => exact ⟨ops, hq, hn⟩
    | some pc =>
      cases pc with
      | wait =>
        cases hqueue : s.request_queue with
        | nil =>
          refine ⟨ops, ?_, ?_⟩
          · simp [worker_step, dequeue_request, hqueue, ← hq]
          · simp [worker_step, dequeue_request, hqueue, ← hn]
        | cons nd rest =>
          refine ⟨ops ++ [queue_op.dequeue], ?_, ?_⟩
          · rw [queue_run_snoc]
            simp [worker_step, dequeue_request, hqueue, queue_step, ← hq]
          · rw [queue_run_snoc]
            simp [worker_step, dequeue_request, hqueue, queue_step, ← hq, ← hn]
      | scan req => exact ⟨ops, hq, hn⟩
      | compute req res =>
        refine ⟨ops, ?_, ?_⟩
        · simp only [worker_step, worker_compute]
          split_ifs <;> exact hq
        · simp only [worker_step, worker_compute]
          split_ifs <;> exact hn
      | update req res => exact ⟨ops, hq, hn⟩
      | reply req res =>
        refine ⟨ops, ?_, ?_⟩
        · simp only [worker_step]
          split_ifs <;> exact hq
        · simp only [worker_step]
          split_ifs <;> exact hn

/-- The request queue of the server is at all times a queue that some
interleaving of `enqueue_request` calls and dequeues builds. -/
theorem server_queue_is_queue_run (K : common_h) (events : List event) :
    ∃ ops, (server_run K events).request_queue = (queue_run ops).request_queue ∧
      (server_run K events).enqueued = (queue_run ops).enqueued := by
  induction events using List.reverseRecOn with
  | nil => exact ⟨[], rfl, rfl⟩
  | append_singleton es e ih =>
    obtain ⟨ops, hq, hn⟩ := ih
    have : server_run K (es ++ [e]) = server_step K (server_run K es) e := by
      simp [server_run, List.foldl_append]
    rw [this]
    exact server_step_queue K _ e ops hq hn

/-! ## Claim about the cache over all schedules -/

set_option maxRecDepth 1000000 in
/-- C7 as stated fails, in two ways.  First schedule: `/tmp/sock` exists but
`digest_file` cannot open it and returns without writing, so the hex encoding
of the bytes left in `raw_hash` by the earlier call for `/tmp/f` is cached
under `/tmp/sock`, for which the digest provider returned no value.  Second
schedule: the request's path field holds no NUL, and the cache entry made for
it has as path the first `MAX_PATH` characters run on with the hash, a path for
which `digest_file` was never called. -/
theorem cache_entry_not_from_provider_counterexample :
    ((server_run K_example stale_digest_schedule).hash_cache =
        [{ path := "/tmp/sock".toList, hash := hex_encode K_example (List.range 32) },
          { path := "/tmp/f".toList, hash := hex_encode K_example (List.range 32) }] ∧
      ¬ hash_from_provider K_example (server_run K_example stale_digest_schedule).digests
        "/tmp/sock".toList (hex_encode K_example (List.range 32))) ∧
    ((server_run K_example long_path_schedule).hash_cache =
        [{ path := List.replicate 256 'a' ++ hex_encode K_example (List.range 32),
           hash := hex_encode K_example (List.range 32) }] ∧
      ¬ hash_from_provider K_example (server_run K_example long_path_schedule).digests
        (List.replicate 256 'a' ++ hex_encode K_example (List.range 32))
        (hex_encode K_example (List.range 32))) := by
  decide

/-- C7 amended: in every state reached from start-up by any schedule of
dispatcher and worker steps (any interleaving of the workers, any outcome of
`access`, `digest_file` and `open`) in which every request's path is shorter
than `MAX_PATH`, every cache entry stems from a call of `digest_file` for that
entry's path: its hash is the hex encoding of the 32 bytes `raw_hash` held
after that call, which is the digest whenever the call produced one; it has 64
hex characters and is not the sentinel.  The same holds of the hash of every
response written with `from_cache = 1`.  A worker that finds the file absent
goes on to reply with all shared state, the cache included, unchanged. -/
theorem cache_entries_are_digests (K : common_h) (events : List event)
    (hK : 64 < K.HASH_SIZE) (hev : ∀ e ∈ events, event_ok K e) :
    (∀ c ∈ (server_run K events).hash_cache,
      (∃ call ∈ (server_run K events).digests, call.path = c.path ∧
        c.hash = hex_encode K (digest_file call.digest call.stale) ∧
        ∀ d, call.digest = some d → c.hash = hex_encode K d) ∧
      c.hash.length = 64 ∧ c.hash ≠ ERRORE_FILE_NOT_FOUND ∧
      ∀ x ∈ c.hash, is_hex_char x = true) ∧
    (∀ rr ∈ (server_run K events).replies, rr.2.from_cache = 1 →
      (∃ call ∈ (server_run K events).digests, call.path = rr.1.file_path ∧
        rr.2.hash = hex_encode K (digest_file call.digest call.stale) ∧
        ∀ d, call.digest = some d → rr.2.hash = hex_encode K d) ∧
      rr.2.hash.length = 64 ∧ rr.2.hash ≠ ERRORE_FILE_NOT_FOUND ∧
      ∀ x ∈ rr.2.hash, is_hex_char x = true) ∧
    (∀ (s : server_state) (req : request_t) (res : response_t) (digest : Option (List Nat))
        (stale : List Nat) (fifo_opened : Bool),
      (worker_step K s (worker_pc.compute req res) false digest stale fifo_opened).1 = s ∧
      ∃ res', (worker_step K s (worker_pc.compute req res) false digest stale
        fifo_opened).2 = worker_pc.reply req res') ∧
    (∀ (hash_cache : List cache_node_t) (req : request_t) (raw_hash : List Nat),
      (worker_thread_body K hash_cache req false raw_hash).2 = hash_cache) := by
  obtain ⟨-, hc, -, hr⟩ := server_run_inv K events hev
  refine ⟨fun c hcm => ⟨hc c hcm, hash_valid_shape K _ _ _ hK (hc c hcm)⟩,
    fun rr hrr hf => ⟨hr rr hrr hf, hash_valid_shape K _ _ _ hK (hr rr hrr hf)⟩, ?_, ?_⟩
  · intro s req res digest stale fifo_opened
    by_cases hfc : res.from_cache = 0 <;> simp [worker_step, worker_compute, hfc]
  · intro hash_cache req raw_hash
    by_cases hfc : (cache_scan hash_cache req res_init).from_cache = 0 <;>
      simp [worker_thread_body, worker_compute, hfc]

/-- Witness of C7 amended: the schedule with two concurrent misses for one
path leaves two cache entries for it, and the third request is answered from
the cache. -/
theorem cache_entries_are_digests_witness :
    (∀ e ∈ double_miss_schedule, event_ok K_example e) ∧
    (server_run K_example double_miss_schedule).hash_cache =
      [{ path := "/tmp/f".toList, hash := hex_encode K_example (List.range 32) },
        { path := "/tmp/f".toList, hash := hex_encode K_example (List.range 32) }] ∧
    ((server_run K_example double_miss_schedule).replies.map (fun rr => rr.2.from_cache)) =
      [0, 0, 1] ∧
    (∀ c ∈ (server_run K_example double_miss_schedule).hash_cache,
      (∃ call ∈ (server_run K_example double_miss_schedule).digests, call.path = c.path ∧
        c.hash = hex_encode K_example (digest_file call.digest call.stale) ∧
        ∀ d, call.digest = some d → c.hash = hex_encode K_example d) ∧
      c.hash.length = 64 ∧ c.hash ≠ ERRORE_FILE_NOT_FOUND ∧
      ∀ x ∈ c.hash, is_hex_char x = true) :=
  ⟨by decide, by decide, by decide,
    (cache_entries_are_digests K_example double_miss_schedule (by decide) (by decide)).1⟩

end Sha256Server
